import Mathlib

/-!
Verification of the distribution-resolution and resource-packaging pipeline
in `src/xtask/src/embed_python/mod.rs`.

Shallow embedding conventions:
* Rust `String` and `PathBuf` are Lean `String` (paths are opaque strings here);
  where byte-level reasoning is needed, byte strings (`Vec<u8>`, `&[u8]`) are
  `List Nat` with every element intended below 256.
* `HashMap`/`BTreeMap` values are association lists `List (k × v)`;
  `HashSet`/`BTreeSet` values are lists managed with insert-if-absent.
* Fallible Rust functions returning `Result`/`eyre::Result` become `Except e a`
  with a structured error enum mirroring the distinct `bail!` sites.
* Filesystem reads are made explicit: functions that read files take an
  abstract filesystem `fs : String → Option (List Nat)` mapping a path to the
  bytes of the file stored there (`none` = read fails).
-/

/-- Generic sequence helper: whether `pat` is a leading segment of `l`.
Used to model byte-string and substring matching from the Rust side. -/
def startsWithSeq {α : Type} [DecidableEq α] : List α → List α → Bool
  | _, [] => true
  | [], _ :: _ => false
  | a :: l, p :: ps => if a = p then startsWithSeq l ps else false

/-- Generic sequence helper: whether `pat` occurs contiguously inside `l`.
Models Rust `str::contains` / byte-slice containment. -/
def containsSeq {α : Type} [DecidableEq α] : List α → List α → Bool
  | [], pat => startsWithSeq [] pat
  | a :: t, pat => startsWithSeq (a :: t) pat || containsSeq t pat

/-- Rust `str::contains` (substring test) on Lean strings. -/
def strContains (hay needle : String) : Bool :=
  containsSeq hay.data needle.data

/-- The bytes of an ASCII string, for moving between `String` and `List Nat`
views of the same machine data. -/
def strBytes (s : String) : List Nat :=
  s.data.map Char.toNat

/-- Embeds `enum FileData { Path(PathBuf), Memory(Vec<u8>) }`:
binary data backed either by the filesystem or by memory. -/
inductive FileData where
  | Path : String → FileData
  | Memory : List Nat → FileData
deriving DecidableEq, Repr

namespace FileData

/-- Embeds `FileData::resolve_content`. If backed by a file the file is read
through the abstract filesystem `fs`; the error value is the path whose read
failed (standing in for `std::io::Error`). -/
def resolve_content (fs : String → Option (List Nat)) : FileData → Except String (List Nat)
  | .Path p =>
    match fs p with
    | some data => .ok data
    | none => .error p
  | .Memory data => .ok data

/-- Embeds `FileData::to_memory`: `Ok(Self::Memory(self.resolve_content()?))`. -/
def to_memory (fs : String → Option (List Nat)) (fd : FileData) : Except String FileData :=
  (fd.resolve_content fs).map .Memory

/-- Embeds `FileData::backing_path`. -/
def backing_path : FileData → Option String
  | .Path p => some p
  | .Memory _ => none

end FileData

/-- Embeds `enum AbstractResourceLocation { InMemory, RelativePath }`. -/
inductive AbstractResourceLocation where
  | InMemory
  | RelativePath
deriving DecidableEq, Repr

/-- Embeds `enum ConcreteResourceLocation { InMemory, RelativePath(String) }`. -/
inductive ConcreteResourceLocation where
  | InMemory
  | RelativePath : String → ConcreteResourceLocation
deriving DecidableEq, Repr

/-- Embeds `impl From<&ConcreteResourceLocation> for AbstractResourceLocation`. -/
def AbstractResourceLocation.fromConcrete : ConcreteResourceLocation → AbstractResourceLocation
  | .InMemory => .InMemory
  | .RelativePath _ => .RelativePath

namespace ConcreteResourceLocation

/-- Embeds `impl ToString for ConcreteResourceLocation`. -/
def to_string : ConcreteResourceLocation → String
  | .InMemory => "in-memory"
  | .RelativePath pfx => "filesystem-relative:" ++ pfx

end ConcreteResourceLocation

/-- Helper modelling Rust `value.splitn(2, ':')` on character lists: split at
the first colon, if any, keeping the remainder (colons included) intact. -/
def splitFirstColon : List Char → Option (List Char × List Char)
  | [] => none
  | c :: t =>
    if c = ':' then some ([], t)
    else (splitFirstColon t).map (fun pr => (c :: pr.1, pr.2))

/-- Embeds `impl TryFrom<&str> for ConcreteResourceLocation`. The Rust code
compares against "in-memory", otherwise applies `splitn(2, ':')` and requires
exactly two parts with first part "filesystem-relative". -/
def ConcreteResourceLocation.try_from (value : String) : Except String ConcreteResourceLocation :=
  if value = "in-memory" then .ok .InMemory
  else
    match splitFirstColon value.data with
    | none => .error (value ++ " is not a valid resource location")
    | some (pre, suf) =>
      if String.mk pre = "filesystem-relative" then .ok (.RelativePath (String.mk suf))
      else .error (value ++ " is not a valid resource location")

/-- Model of a parsed JSON document (what `serde_json::Value` holds after a
successful `from_slice`). Object member lists have unique keys, as produced
by the serde_json parser. -/
inductive Json where
  | null
  | bool : Bool → Json
  | num : Int → Json
  | str : String → Json
  | arr : List Json → Json
  | obj : List (String × Json) → Json
deriving Repr

/-- Embeds `serde_json::Value::as_str`. -/
def Json.as_str : Json → Option String
  | .str s => some s
  | _ => none

/-- Embeds `serde_json::Value::as_object`. -/
def Json.as_object : Json → Option (List (String × Json))
  | .obj fields => some fields
  | _ => none

/-- Embeds `struct LinkEntry` (serde schema for a manifest link entry). -/
structure LinkEntry where
  name : String
  path_static : Option String
  path_dynamic : Option String
  framework : Option Bool
  system : Option Bool
deriving DecidableEq, Repr

/-- Embeds `struct LibraryDependency`. -/
structure LibraryDependency where
  name : String
  static_library : Option FileData
  static_filename : Option String
  dynamic_library : Option FileData
  dynamic_filename : Option String
  framework : Bool
  system : Bool
deriving DecidableEq, Repr

/-- Models `Path::join(base, rel)` for the relative paths appearing in
manifests. -/
def pathJoin (base rel : String) : String :=
  base ++ "/" ++ rel

/-- Models `PathBuf::from(f).file_name()`: the final component of a path. -/
def pathFileName (p : String) : String :=
  String.mk (go p.data [])
where
  go : List Char → List Char → List Char
    | [], acc => acc.reverse
    | c :: t, acc => if c = '/' then go t [] else go t (c :: acc)

/-- Embeds `LinkEntry::to_library_dependency`. -/
def LinkEntry.to_library_dependency (entry : LinkEntry) (python_path : String) : LibraryDependency :=
  { name := entry.name
    static_library := entry.path_static.map (fun p => FileData.Path (pathJoin python_path p))
    static_filename := entry.path_static.map pathFileName
    dynamic_library := entry.path_dynamic.map (fun p => FileData.Path (pathJoin python_path p))
    dynamic_filename := entry.path_dynamic.map pathFileName
    framework := entry.framework.getD false
    system := entry.system.getD false }

/-- Embeds `struct PythonBuildExtensionInfo`. -/
structure PythonBuildExtensionInfo where
  in_core : Bool
  init_fn : String
  licenses : Option (List String)
  license_paths : Option (List String)
  license_public_domain : Option Bool
  links : List LinkEntry
  objs : List String
  required : Bool
  static_lib : Option String
  shared_lib : Option String
  variant : String
deriving DecidableEq, Repr

/-- Embeds `struct PythonBuildCoreInfo`. -/
structure PythonBuildCoreInfo where
  objs : List String
  links : List LinkEntry
  shared_lib : Option String
  static_lib : Option String
deriving DecidableEq, Repr

/-- Embeds `struct PythonBuildInfo`. -/
structure PythonBuildInfo where
  core : PythonBuildCoreInfo
  extensions : List (String × List PythonBuildExtensionInfo)
  inittab_object : String
  inittab_source : String
  inittab_cflags : List String
  object_file_format : String
deriving DecidableEq, Repr

/-- Embeds `struct PythonJsonMain`, the strict schema of PYTHON.json. -/
structure PythonJsonMain where
  version : String
  target_triple : String
  optimizations : String
  python_tag : String
  python_abi_tag : Option String
  python_config_vars : List (String × String)
  python_platform_tag : String
  python_implementation_cache_tag : String
  python_implementation_hex_version : Nat
  python_implementation_name : String
  python_implementation_version : List String
  python_version : String
  python_major_minor_version : String
  python_paths : List (String × String)
  python_paths_abstract : List (String × String)
  python_exe : String
  python_stdlib_test_packages : List String
  python_suffixes : List (String × List String)
  python_bytecode_magic_number : String
  python_symbol_visibility : String
  python_extension_module_loading : List String
  apple_sdk_canonical_name : Option String
  apple_sdk_platform : Option String
  apple_sdk_version : Option String
  apple_sdk_deployment_target : Option String
  libpython_link_mode : String
  crt_features : List String
  run_tests : String
  build_info : PythonBuildInfo
  licenses : Option (List String)
  license_path : Option String
  tcl_library_path : Option String
  tcl_library_paths : Option (List String)
deriving DecidableEq, Repr

/-- The distinct failure modes of `parse_python_json`, one per `bail!` or `?`
site, carrying the data interpolated into the corresponding error message. -/
inductive ManifestError where
  /-- "PYTHON.json does not exist; are you using an up-to-date Python
  distribution that conforms with our requirements?" -/
  | notFound
  /-- the `?` on `serde_json::from_slice::<Value>` -/
  | invalidJson
  /-- "PYTHON.json does not parse to an object" -/
  | notAnObject
  /-- "unable to parse version as a string" -/
  | versionNotString
  /-- "expected version 7 standalone distribution; found version {}" -/
  | versionMismatch : String → ManifestError
  /-- "version key not present in PYTHON.json" -/
  | versionMissing
  /-- the `?` on `serde_json::from_slice::<PythonJsonMain>` -/
  | schemaError
deriving DecidableEq, Repr

/-- Embeds `fn parse_python_json`. The filesystem state at the manifest path
is abstracted into `fileExists` (result of `path.exists()`) and `doc` (result
of parsing the raw bytes as a generic `serde_json::Value`; `none` means the
bytes are not valid JSON). `deser` stands for the strict
`serde_json::from_slice::<PythonJsonMain>` pass over the same bytes. -/
def parse_python_json (fileExists : Bool) (doc : Option Json)
    (deser : Json → Option PythonJsonMain) : Except ManifestError PythonJsonMain :=
  if !fileExists then .error .notFound
  else
    match doc with
    | none => .error .invalidJson
    | some value =>
      match value.as_object with
      | none => .error .notAnObject
      | some o =>
        match o.lookup "version" with
        | some version =>
          match version.as_str with
          | none => .error .versionNotString
          | some v =>
            if v ≠ "7" then .error (.versionMismatch v)
            else
              match deser value with
              | some pi => .ok pi
              | none => .error .schemaError
        | none => .error .versionMissing

/-- A directory tree as enumerated by `walkdir`: a named file or a named
directory with a list of children. The order of the `children` list models
the nondeterministic order in which the operating system lists a directory;
`walk_tree_files` sorts it before use. -/
inductive FsTree where
  | file : String → FsTree
  | dir : String → List FsTree → FsTree
deriving Repr

/-- The `file_name()` of a directory entry. -/
def fsName : FsTree → String
  | .file n => n
  | .dir n _ => n

/-- The comparator passed to `WalkDir::sort_by`: compare entries by file
name. -/
def treeNameLE (a b : FsTree) : Bool :=
  fsName a ≤ fsName b

/-- Embeds `walk_tree_files` composed with the `strip_prefix` done by its
caller: the relative paths (as component lists) of all non-directory entries
under the given tree, in walkdir order (depth first, siblings sorted by file
name via the stable `sort_by`), directories themselves filtered out. -/
def walkRelFiles : FsTree → List (List String)
  | .file _ => [[]]
  | .dir _ ts =>
    (List.mergeSort ts treeNameLE).attach.flatMap
      (fun c => (walkRelFiles c.1).map (fun p => fsName c.1 :: p))
decreasing_by
  have hm := List.mem_mergeSort.mp c.2
  have hlt := List.sizeOf_lt_of_mem hm
  simp only [FsTree.dir.sizeOf_spec]
  omega

/-- Rendering of a relative path as the `String` key used in the includes
map (`rel_path.to_str()`). -/
def joinComponents (ps : List String) : String :=
  String.intercalate "/" ps

/-- Map insert modelling `HashMap::insert` / `BTreeMap::insert` on the
association-list representation (keys are unique): replace the value at an
existing key, otherwise append the binding. -/
def assocInsert {β : Type} : List (String × β) → String → β → List (String × β)
  | [], k, v => [(k, v)]
  | (k0, v0) :: t, k, v =>
    if k0 = k then (k, v) :: t else (k0, v0) :: assocInsert t k v

/-- The include-map construction of `from_directory` (the loop over
`walk_tree_files(&include_path)`): for every file under the include tree,
map its relative path string to its full path. -/
def includesFrom (include_path : String) (t : FsTree) : List (String × String) :=
  (walkRelFiles t).foldl
    (fun m rel => assocInsert m (joinComponents rel) (pathJoin include_path (joinComponents rel))) []

/-- Embeds `struct StandaloneDistribution` (only fields that are live in the
source; commented-out fields are omitted). -/
structure StandaloneDistribution where
  base_dir : String
  target_triple : String
  python_implementation : String
  python_tag : String
  python_abi_tag : Option String
  python_platform_tag : String
  version : String
  python_exe : String
  stdlib_path : String
  stdlib_test_packages : List String
  python_symbol_visibility : String
  extension_module_loading : List String
  licenses : Option (List String)
  license_path : Option String
  tcl_library_path : Option String
  tcl_library_paths : Option (List String)
  objs_core : List (String × String)
  frozen_c : List Nat
  includes : List (String × String)
  libraries : List (String × String)
  py_modules : List (String × String)
  resources : List (String × List (String × String))
  inittab_object : String
  inittab_cflags : List String
  cache_tag : String
  crt_features : List String
  config_vars : List (String × String)
deriving DecidableEq, Repr

/-- The distinct failure modes of `StandaloneDistribution::from_directory`,
one per `bail!` / `?` site. -/
inductive DistError where
  /-- "unexpected entry in distribution root directory: {}" -/
  | unexpectedRootEntry : String → DistError
  /-- "error listing root directory of Python distribution" -/
  | rootListError
  /-- "unexpected entry in python/ directory: {}" -/
  | unexpectedPythonEntry : String → DistError
  /-- "error listing python/ directory" -/
  | pythonListError
  /-- a failure propagated from `parse_python_json_from_distribution` -/
  | manifest : ManifestError → DistError
  /-- "include path not defined in distribution" -/
  | includePathMissing
  /-- "stdlib path not defined in distribution" -/
  | stdlibPathMissing
deriving DecidableEq, Repr

/-- Embeds the first `read_dir(dist_dir)` loop of `from_directory`: each root
entry must be `.DS_Store` or `python` (a file name that is not valid UTF-8,
modelled as `none`, hits the `_` arm). -/
def check_root_entries : List (Option String) → Except DistError Unit
  | [] => .ok ()
  | e :: rest =>
    match e with
    | some ".DS_Store" => check_root_entries rest
    | some "python" => check_root_entries rest
    | some v => .error (.unexpectedRootEntry v)
    | none => .error .rootListError

/-- Embeds the second `read_dir(python_path)` loop of `from_directory`. -/
def check_python_entries : List (Option String) → Except DistError Unit
  | [] => .ok ()
  | e :: rest =>
    match e with
    | some "build" => check_python_entries rest
    | some "install" => check_python_entries rest
    | some "lib" => check_python_entries rest
    | some "licenses" => check_python_entries rest
    | some "LICENSE.rst" => check_python_entries rest
    | some "PYTHON.json" => check_python_entries rest
    | some v => .error (.unexpectedPythonEntry v)
    | none => .error .pythonListError

/-- The observable filesystem state that `from_directory` consumes, made
explicit: the listings of the two directories it enumerates, whether
`PYTHON.json` exists, the generic JSON parse of its bytes, and the directory
tree found at any path that gets walked (the include directory). -/
structure DistDirState where
  rootEntries : List (Option String)
  pythonEntries : List (Option String)
  manifestExists : Bool
  manifestDoc : Option Json
  dirTree : String → FsTree

/-- Embeds `StandaloneDistribution::from_directory` over the explicit
filesystem state. `deser` is the strict schema pass of `parse_python_json`
(see there). Mirrors the source order: enumerate and allow-list the root
directory, then the python/ directory, then parse PYTHON.json, then build
the core-object map, the library map from link entries, walk the include
directory and assemble the result. -/
def from_directory (dist_dir : String) (st : DistDirState)
    (deser : Json → Option PythonJsonMain) : Except DistError StandaloneDistribution := do
  (check_root_entries st.rootEntries)
  (check_python_entries st.pythonEntries)
  let pi ← (parse_python_json st.manifestExists st.manifestDoc deser).mapError DistError.manifest
  let python_path := pathJoin dist_dir "python"
  let objs_core := pi.build_info.core.objs.foldl
    (fun m obj => assocInsert m obj (pathJoin python_path obj)) []
  let libraries := pi.build_info.core.links.foldl
    (fun m entry =>
      let depends := entry.to_library_dependency python_path
      match depends.static_library with
      | some data =>
        match data.backing_path with
        | some p => assocInsert m depends.name p
        | none => m
      | none => m) []
  let include_path ←
    match pi.python_paths.lookup "include" with
    | some p => pure (pathJoin python_path p)
    | none => .error .includePathMissing
  let includes := includesFrom include_path (st.dirTree include_path)
  let stdlib_path ←
    match pi.python_paths.lookup "stdlib" with
    | some p => pure (pathJoin python_path p)
    | none => .error .stdlibPathMissing
  .ok
    { base_dir := dist_dir
      target_triple := pi.target_triple
      python_implementation := pi.python_implementation_name
      python_tag := pi.python_tag
      python_abi_tag := pi.python_abi_tag
      python_platform_tag := pi.python_platform_tag
      version := pi.python_version
      python_exe := pathJoin (pathJoin dist_dir "python") pi.python_exe
      stdlib_path := stdlib_path
      stdlib_test_packages := pi.python_stdlib_test_packages
      python_symbol_visibility := pi.python_symbol_visibility
      extension_module_loading := pi.python_extension_module_loading
      licenses := pi.licenses
      license_path := pi.license_path
      tcl_library_path := pi.tcl_library_path.map (pathJoin (pathJoin dist_dir "python"))
      tcl_library_paths := pi.tcl_library_paths
      objs_core := objs_core
      frozen_c := []
      includes := includes
      libraries := libraries
      py_modules := []
      resources := []
      inittab_object := pathJoin python_path pi.build_info.inittab_object
      inittab_cflags := pi.build_info.inittab_cflags
      cache_tag := pi.python_implementation_cache_tag
      crt_features := pi.crt_features
      config_vars := pi.python_config_vars }

/-- Embeds `StandaloneDistribution::is_extension_module_file_loadable`. -/
def StandaloneDistribution.is_extension_module_file_loadable (d : StandaloneDistribution) : Bool :=
  d.extension_module_loading.contains "shared-library"

/-- Embeds `StandaloneDistribution::supports_in_memory_shared_library_loading`. -/
def StandaloneDistribution.supports_in_memory_shared_library_loading
    (d : StandaloneDistribution) : Bool :=
  strContains d.target_triple "pc-windows"
    && d.python_symbol_visibility == "dllexport"
    && d.extension_module_loading.contains "shared-library"

/-- Embeds `struct PythonPackagingPolicy` (live fields only;
`extension_module_filter` is commented out in the source). -/
structure PythonPackagingPolicy where
  preferred_extension_module_variants : List (String × String)
  resources_location : ConcreteResourceLocation
  resources_location_fallback : Option ConcreteResourceLocation
  allow_in_memory_shared_library_loading : Bool
  allow_files : Bool
  file_scanner_emit_files : Bool
  file_scanner_classify_files : Bool
  include_classified_resources : Bool
  include_distribution_sources : Bool
  include_non_distribution_sources : Bool
  include_distribution_resources : Bool
  include_test : Bool
  include_file_resources : Bool
  broken_extensions : List (String × List String)
  bytecode_optimize_level_zero : Bool
  bytecode_optimize_level_one : Bool
  bytecode_optimize_level_two : Bool
  no_bytecode_modules : List String
deriving DecidableEq, Repr

namespace PythonPackagingPolicy

/-- Models `HashMap::contains_key` on the association-list representation. -/
def mapContainsKey {β : Type} (m : List (String × β)) (k : String) : Bool :=
  (m.lookup k).isSome

/-- Models `map.get_mut(k).unwrap().push(v)`: append `v` to the list stored
at key `k` (the caller has ensured the key is present; keys are unique). -/
def mapPushAt : List (String × List String) → String → String → List (String × List String)
  | [], _, _ => []
  | (k0, v0) :: t, k, v =>
    if k0 = k then (k0, v0 ++ [v]) :: t else (k0, v0) :: mapPushAt t k v

/-- Embeds `PythonPackagingPolicy::register_broken_extension`: if the triple
has no entry yet, insert an empty list for it, then push the extension name
onto the list for the triple. -/
def register_broken_extension (p : PythonPackagingPolicy) (target_triple extension_name : String) :
    PythonPackagingPolicy :=
  let m :=
    if mapContainsKey p.broken_extensions target_triple then p.broken_extensions
    else assocInsert p.broken_extensions target_triple []
  { p with broken_extensions := mapPushAt m target_triple extension_name }

/-- Embeds `PythonPackagingPolicy::register_no_bytecode_module`:
`HashSet::insert`, a no-op when the name is already present. -/
def register_no_bytecode_module (p : PythonPackagingPolicy) (name : String) :
    PythonPackagingPolicy :=
  { p with no_bytecode_modules :=
      if name ∈ p.no_bytecode_modules then p.no_bytecode_modules
      else p.no_bytecode_modules ++ [name] }

/-- The broken-extension list registered for a target triple (empty when the
triple has no entry). Query used to compare policies by membership. -/
def broken_list (p : PythonPackagingPolicy) (target_triple : String) : List String :=
  (p.broken_extensions.lookup target_triple).getD []

end PythonPackagingPolicy

/-- Modelled from the spec: the enum behind the three bytecode slots of a
pre-packaged resource is not among the available source files (only its
`FromSource` variant appears, matched inside
`PythonResourceCollector::find_dunder_file`). Section 3 of the spec says each
slot is "either compiled-from-source or pre-provided". -/
inductive PythonModuleBytecodeProvider where
  | FromSource : FileData → PythonModuleBytecodeProvider
  | Provided : FileData → PythonModuleBytecodeProvider
deriving DecidableEq, Repr

/-- Embeds `struct PrePackagedResource` (live fields; the three
`relative_path_bytecode*` fields are commented out in the source). -/
structure PrePackagedResource where
  name : String
  is_package : Bool
  is_namespace_package : Bool
  in_memory_source : Option FileData
  in_memory_bytecode : Option PythonModuleBytecodeProvider
  in_memory_bytecode_opt1 : Option PythonModuleBytecodeProvider
  in_memory_bytecode_opt2 : Option PythonModuleBytecodeProvider
  in_memory_extension_module_shared_library : Option FileData
  in_memory_resources : Option (List (String × FileData))
  in_memory_distribution_resources : Option (List (String × FileData))
  in_memory_shared_library : Option FileData
  shared_library_dependency_names : Option (List String)
  relative_path_module_source : Option (String × FileData)
  relative_path_extension_module_shared_library : Option (String × FileData)
  relative_path_package_resources : Option (List (String × (String × FileData)))
  relative_path_distribution_resources : Option (List (String × (String × FileData)))
  relative_path_shared_library : Option (String × String × FileData)
  is_module : Bool
  is_builtin_extension_module : Bool
  is_frozen_module : Bool
  is_extension_module : Bool
  is_shared_library : Bool
  is_utf8_filename_data : Bool
  file_executable : Bool
  file_data_embedded : Option FileData
  file_data_utf8_relative_path : Option (String × FileData)
deriving DecidableEq, Repr

/-- A `PrePackagedResource` with every flag false and every slot empty, as
produced by `PrePackagedResource::default()`. -/
def PrePackagedResource.empty (name : String) : PrePackagedResource :=
  { name := name
    is_package := false
    is_namespace_package := false
    in_memory_source := none
    in_memory_bytecode := none
    in_memory_bytecode_opt1 := none
    in_memory_bytecode_opt2 := none
    in_memory_extension_module_shared_library := none
    in_memory_resources := none
    in_memory_distribution_resources := none
    in_memory_shared_library := none
    shared_library_dependency_names := none
    relative_path_module_source := none
    relative_path_extension_module_shared_library := none
    relative_path_package_resources := none
    relative_path_distribution_resources := none
    relative_path_shared_library := none
    is_module := false
    is_builtin_extension_module := false
    is_frozen_module := false
    is_extension_module := false
    is_shared_library := false
    is_utf8_filename_data := false
    file_executable := false
    file_data_embedded := none
    file_data_utf8_relative_path := none }

/-- Embeds `struct PythonResourceCollector`. The registry is the
association-list view of the `BTreeMap<String, PrePackagedResource>`. -/
structure PythonResourceCollector where
  allowed_locations : List AbstractResourceLocation
  allowed_extension_module_locations : List AbstractResourceLocation
  allow_new_builtin_extension_modules : Bool
  allow_files : Bool
  resources : List (String × PrePackagedResource)
deriving DecidableEq, Repr

/-- Embeds `PythonResourceCollector::new`. -/
def PythonResourceCollector.new
    (allowed_locations allowed_extension_module_locations : List AbstractResourceLocation)
    (allow_new_builtin_extension_modules allow_files : Bool) : PythonResourceCollector :=
  { allowed_locations := allowed_locations
    allowed_extension_module_locations := allowed_extension_module_locations
    allow_new_builtin_extension_modules := allow_new_builtin_extension_modules
    allow_files := allow_files
    resources := [] }

/-- Byte class `[ \t\f]` of the coding-declaration regex. -/
def isSpaceTabFF (b : Nat) : Bool :=
  b = 0x20 || b = 0x09 || b = 0x0C

/-- Byte class `[ \t]` of the coding-declaration regex. -/
def isSpaceTab (b : Nat) : Bool :=
  b = 0x20 || b = 0x09

/-- Byte class `[-_.a-zA-Z0-9]` of the coding-declaration regex. -/
def isCodingNameByte (b : Nat) : Bool :=
  b = 0x2D || b = 0x5F || b = 0x2E
    || (0x61 ≤ b && b ≤ 0x7A) || (0x41 ≤ b && b ≤ 0x5A) || (0x30 ≤ b && b ≤ 0x39)

/-- Matches the regex fragment `coding[:=][ \t]*([-_.a-zA-Z0-9]+)` at the
start of `l`, returning the full matched byte run on success. The greedy
`[ \t]*` and the final `+` cannot backtrack usefully (their byte classes are
disjoint), so the match is deterministic. -/
def matchCodingTail (l : List Nat) : Option (List Nat) :=
  if startsWithSeq l (strBytes "coding") then
    match l.drop 6 with
    | sep :: rest =>
      if sep = 0x3A || sep = 0x3D then
        let ws := rest.takeWhile isSpaceTab
        let rest2 := rest.dropWhile isSpaceTab
        let nm := rest2.takeWhile isCodingNameByte
        if nm.isEmpty then none
        else some (strBytes "coding" ++ [sep] ++ ws ++ nm)
      else none
    | [] => none
  else none

/-- The lazy `.*?` of the coding-declaration regex: find the earliest offset
at which `matchCodingTail` succeeds, skipping any byte except a newline
(which `.` does not match). Returns the skipped bytes and the tail match. -/
def lazyCodingSearch : List Nat → Option (List Nat × List Nat)
  | [] => none
  | b :: rest =>
    match matchCodingTail (b :: rest) with
    | some m => some ([], m)
    | none =>
      if b = 0x0A then none
      else (lazyCodingSearch rest).map (fun pr => (b :: pr.1, pr.2))

/-- Models `RE_CODING.find(line)` for the anchored regex
`^[ \t\f]*#.*?coding[:=][ \t]*([-_.a-zA-Z0-9]+)` over one line of bytes,
returning the bytes of the full match (what `m.as_bytes()` yields; note this
is the whole match, not capture group 1). -/
def re_coding_find (line : List Nat) : Option (List Nat) :=
  let ws := line.takeWhile isSpaceTabFF
  match line.dropWhile isSpaceTabFF with
  | 0x23 :: rest =>
    (lazyCodingSearch rest).map (fun pr => ws ++ [0x23] ++ pr.1 ++ pr.2)
  | _ => none

/-- Models `source.split(|v| v == &b'\n')`: split a byte string on newline
bytes; a trailing newline yields a final empty piece, like the Rust
iterator. -/
def splitOnNl : List Nat → List (List Nat)
  | [] => [[]]
  | b :: rest =>
    if b = 0x0A then [] :: splitOnNl rest
    else
      match splitOnNl rest with
      | [] => [[b]]
      | l :: ls => (b :: l) :: ls

/-- Embeds `python_source_encoding`: scan the first two lines for the coding
declaration regex; on a match return the matched bytes, else the default
`utf-8`. -/
def python_source_encoding (source : List Nat) : List Nat :=
  match ((splitOnNl source).take 2).findSome? re_coding_find with
  | some m => m
  | none => strBytes "utf-8"

/-- The text encodings reachable through the labels this pipeline can
produce; stands for `encoding_rs::Encoding`. -/
inductive TextEncoding where
  | utf8
  | utf16le
  | utf16be
  | windows1252
deriving DecidableEq, Repr

/-- ASCII lowercasing of a byte, as done by WHATWG label matching. -/
def asciiLowerByte (b : Nat) : Nat :=
  if 0x41 ≤ b ∧ b ≤ 0x5A then b + 0x20 else b

/-- ASCII whitespace, as trimmed by WHATWG label matching. -/
def isAsciiWsByte (b : Nat) : Bool :=
  b = 0x09 || b = 0x0A || b = 0x0C || b = 0x0D || b = 0x20

/-- Strip leading and trailing ASCII whitespace from a byte string. -/
def trimAsciiWs (l : List Nat) : List Nat :=
  ((l.dropWhile isAsciiWsByte).reverse.dropWhile isAsciiWsByte).reverse

/-- The WHATWG encoding labels relevant to this pipeline (the UTF-8, UTF-16
and windows-1252 families). Every label in the full WHATWG registry consists
of printable non-space characters, never 0x23 `#` or 0x20; labels of
encodings that cannot arise here are omitted and treated as unknown. -/
def encodingLabelTable : List (List Nat × TextEncoding) :=
  [ (strBytes "utf-8", .utf8)
  , (strBytes "utf8", .utf8)
  , (strBytes "unicode-1-1-utf-8", .utf8)
  , (strBytes "utf-16", .utf16le)
  , (strBytes "utf-16le", .utf16le)
  , (strBytes "utf-16be", .utf16be)
  , (strBytes "windows-1252", .windows1252)
  , (strBytes "x-cp1252", .windows1252)
  , (strBytes "cp1252", .windows1252)
  , (strBytes "latin1", .windows1252)
  , (strBytes "l1", .windows1252)
  , (strBytes "iso-8859-1", .windows1252)
  , (strBytes "iso8859-1", .windows1252)
  , (strBytes "iso88591", .windows1252)
  , (strBytes "iso_8859-1", .windows1252)
  , (strBytes "ascii", .windows1252)
  , (strBytes "us-ascii", .windows1252) ]

/-- Models `encoding_rs::Encoding::for_label`: trim ASCII whitespace,
lowercase, look the label up. -/
def for_label (label : List Nat) : Option TextEncoding :=
  encodingLabelTable.lookup ((trimAsciiWs label).map asciiLowerByte)

/-- State of the WHATWG UTF-8 decoder: either between sequences, or inside
one with the accumulated code point value, the number of continuation bytes
still needed, and the valid range (`0x80 + loOff` to `hi`) for the next
byte. -/
inductive Utf8State where
  | accept
  | need (cp : Nat) (more : Nat) (loOff : Nat) (hi : Nat)
deriving DecidableEq, Repr

/-- One step of the WHATWG UTF-8 decoder from the accept state: an ASCII
byte is emitted as itself, a valid lead byte opens a sequence (with the
restricted ranges for 0xE0/0xED/0xF0/0xF4), anything else is an error
emitting U+FFFD. -/
def utf8StepStart (b : Nat) : List Nat × Utf8State :=
  if b ≤ 0x7F then ([b], .accept)
  else if 0xC2 ≤ b ∧ b ≤ 0xDF then ([], .need (b - 0xC0) 1 0 0xBF)
  else if b = 0xE0 then ([], .need 0 2 0x20 0xBF)
  else if 0xE1 ≤ b ∧ b ≤ 0xEC then ([], .need (b - 0xE0) 2 0 0xBF)
  else if b = 0xED then ([], .need 13 2 0 0x9F)
  else if 0xEE ≤ b ∧ b ≤ 0xEF then ([], .need (b - 0xE0) 2 0 0xBF)
  else if b = 0xF0 then ([], .need 0 3 0x10 0xBF)
  else if 0xF1 ≤ b ∧ b ≤ 0xF3 then ([], .need (b - 0xF0) 3 0 0xBF)
  else if b = 0xF4 then ([], .need 4 3 0 0x8F)
  else ([0xFFFD], .accept)

/-- The WHATWG UTF-8 decoder with replacement, producing the decoded code
points. An out-of-range byte inside a sequence emits U+FFFD and is
reprocessed from the accept state (the WHATWG "prepend" rule); a truncated
sequence at end of stream emits one U+FFFD. -/
def utf8DecodeAux : Utf8State → List Nat → List Nat
  | .accept, [] => []
  | .need _ _ _ _, [] => [0xFFFD]
  | .accept, b :: rest =>
    let st := utf8StepStart b
    st.1 ++ utf8DecodeAux st.2 rest
  | .need cp more loOff hi, b :: rest =>
    if 0x80 + loOff ≤ b ∧ b ≤ hi then
      let cp2 := cp * 64 + (b - 0x80)
      if more = 1 then cp2 :: utf8DecodeAux .accept rest
      else utf8DecodeAux (.need cp2 (more - 1) 0 0xBF) rest
    else
      let st := utf8StepStart b
      0xFFFD :: (st.1 ++ utf8DecodeAux st.2 rest)

/-- Decode a byte string as UTF-8 with replacement (code point output). -/
def utf8Decode (bs : List Nat) : List Nat :=
  utf8DecodeAux .accept bs

/-- The decoder states reachable from the accept state: inside a sequence,
the value accumulated so far is large enough that the completed code point
is at least 0x80 (so multi-byte sequences never decode to ASCII). -/
def GoodState : Utf8State → Prop
  | .accept => True
  | .need cp more loOff _ => 1 ≤ more ∧ 0x80 ≤ (cp * 64 + loOff) * 64 ^ (more - 1)

/-- The WHATWG UTF-16 decoder with replacement (both endiannesses): pair
bytes into code units, combine surrogate pairs, replace unpaired surrogates,
and replace a trailing lone byte or truncated pair at end of stream. -/
def utf16Decode (be : Bool) : List Nat → List Nat
  | [] => []
  | [_] => [0xFFFD]
  | b1 :: b2 :: rest =>
    let u := if be then b1 * 256 + b2 else b2 * 256 + b1
    if 0xD800 ≤ u ∧ u ≤ 0xDBFF then
      match rest with
      | b3 :: b4 :: rest2 =>
        let u2 := if be then b3 * 256 + b4 else b4 * 256 + b3
        if 0xDC00 ≤ u2 ∧ u2 ≤ 0xDFFF then
          (0x10000 + (u - 0xD800) * 0x400 + (u2 - 0xDC00)) :: utf16Decode be rest2
        else 0xFFFD :: utf16Decode be (b3 :: b4 :: rest2)
      | [_] => [0xFFFD]
      | [] => [0xFFFD]
    else if 0xDC00 ≤ u ∧ u ≤ 0xDFFF then 0xFFFD :: utf16Decode be rest
    else u :: utf16Decode be rest
termination_by l => l.length
decreasing_by all_goals simp +arith [List.length_cons]

/-- The windows-1252 byte-to-code-point table for 0x80..0x9F; all other
bytes map to themselves. -/
def win1252Map (b : Nat) : Nat :=
  if b = 0x80 then 0x20AC
  else if b = 0x82 then 0x201A
  else if b = 0x83 then 0x0192
  else if b = 0x84 then 0x201E
  else if b = 0x85 then 0x2026
  else if b = 0x86 then 0x2020
  else if b = 0x87 then 0x2021
  else if b = 0x88 then 0x02C6
  else if b = 0x89 then 0x2030
  else if b = 0x8A then 0x0160
  else if b = 0x8B then 0x2039
  else if b = 0x8C then 0x0152
  else if b = 0x8E then 0x017D
  else if b = 0x91 then 0x2018
  else if b = 0x92 then 0x2019
  else if b = 0x93 then 0x201C
  else if b = 0x94 then 0x201D
  else if b = 0x95 then 0x2022
  else if b = 0x96 then 0x2013
  else if b = 0x97 then 0x2014
  else if b = 0x98 then 0x02DC
  else if b = 0x99 then 0x2122
  else if b = 0x9A then 0x0161
  else if b = 0x9B then 0x203A
  else if b = 0x9C then 0x0153
  else if b = 0x9E then 0x017E
  else if b = 0x9F then 0x0178
  else b

/-- Decode with a fixed encoding, no BOM handling. -/
def decodeNoBom : TextEncoding → List Nat → List Nat
  | .utf8, bs => utf8Decode bs
  | .utf16le, bs => utf16Decode false bs
  | .utf16be, bs => utf16Decode true bs
  | .windows1252, bs => bs.map win1252Map

/-- The BOM sniffing performed by `encoding_rs::Encoding::decode`: a UTF-8
or UTF-16 byte order mark overrides the chosen encoding and is removed. -/
def bomSniff : List Nat → Option (TextEncoding × List Nat)
  | 0xEF :: 0xBB :: 0xBF :: rest => some (.utf8, rest)
  | 0xFE :: 0xFF :: rest => some (.utf16be, rest)
  | 0xFF :: 0xFE :: rest => some (.utf16le, rest)
  | _ => none

/-- Models `encoding_rs::Encoding::decode` (with BOM sniffing and
replacement), producing the code points of the decoded text. -/
def decodeBytes (enc : TextEncoding) (bytes : List Nat) : List Nat :=
  match bomSniff bytes with
  | some (e, rest) => decodeNoBom e rest
  | none => decodeNoBom enc bytes

/-- Embeds `has_dunder_file`: sniff the source encoding, resolve it through
`for_label` with UTF-8 fallback, decode, and search the decoded text for
`__file__`. Searching the decoded code points for the ASCII code point
sequence is equivalent to the Rust substring search on the decoded string,
because in UTF-8 every byte below 0x80 is itself a character. The Rust
function returns `eyre::Result<bool>` but has no failure path, so it is
embedded as `Bool`. -/
def has_dunder_file (source : List Nat) : Bool :=
  let encoding := python_source_encoding source
  let encoder := (for_label encoding).getD .utf8
  let decoded := decodeBytes encoder source
  containsSeq decoded (strBytes "__file__")

/-- Models `BTreeSet<String>::insert`: sorted insert without duplicates. -/
def btreeSetInsert : List String → String → List String
  | [], x => [x]
  | y :: t, x =>
    if x < y then x :: y :: t
    else if x = y then y :: t
    else y :: btreeSetInsert t x

/-- Models `BTreeMap<String, _>::insert`: sorted insert, replacing the value
at an existing key. -/
def btreeMapInsert {β : Type} : List (String × β) → String → β → List (String × β)
  | [], k, v => [(k, v)]
  | (k0, v0) :: t, k, v =>
    if k < k0 then (k, v) :: (k0, v0) :: t
    else if k = k0 then (k, v) :: t
    else (k0, v0) :: btreeMapInsert t k v

/-- One `if let` block of `PythonResourceCollector::find_dunder_file`: when
the slot holds source data, resolve it (an unreadable backing file
propagates as an error) and insert the module name into the result set if
the source references `__file__`. -/
def auditCheck (fs : String → Option (List Nat)) (name : String)
    (slot : Option FileData) (res : List String) : Except String (List String) :=
  match slot with
  | some location => do
    let content ← location.resolve_content fs
    pure (if has_dunder_file content then btreeSetInsert res name else res)
  | none => pure res

/-- The source data scanned for a bytecode slot: only the
`PythonModuleBytecodeProvider::FromSource` pattern is matched by
`find_dunder_file`. -/
def bytecodeSource : Option PythonModuleBytecodeProvider → Option FileData
  | some (.FromSource location) => some location
  | _ => none

/-- The body of the `for (name, module)` loop of
`PythonResourceCollector::find_dunder_file` for a single registry entry:
check the in-memory source and the three in-memory bytecode slots. -/
def auditResource (fs : String → Option (List Nat)) (name : String)
    (module : PrePackagedResource) (res : List String) : Except String (List String) := do
  let res1 ← auditCheck fs name module.in_memory_source res
  let res2 ← auditCheck fs name (bytecodeSource module.in_memory_bytecode) res1
  let res3 ← auditCheck fs name (bytecodeSource module.in_memory_bytecode_opt1) res2
  let res4 ← auditCheck fs name (bytecodeSource module.in_memory_bytecode_opt2) res3
  pure res4

/-- The registry loop of `find_dunder_file`, processing entries in registry
(key) order and accumulating the result set. -/
def find_dunder_file_aux (fs : String → Option (List Nat)) :
    List (String × PrePackagedResource) → List String → Except String (List String)
  | [], res => .ok res
  | (name, module) :: rest, res => do
    let res2 ← auditResource fs name module res
    find_dunder_file_aux fs rest res2

/-- Embeds `PythonResourceCollector::find_dunder_file`: scan every resource
for `__file__` references and return the names of those that contain one. -/
def PythonResourceCollector.find_dunder_file (fs : String → Option (List Nat))
    (c : PythonResourceCollector) : Except String (List String) :=
  find_dunder_file_aux fs c.resources []

/-- The failure of an addition whose requested location is not permitted,
surfaced with the offending resource name (spec section 7, taxonomy c). -/
inductive CollectorError where
  | locationNotAllowed : String → CollectorError
deriving DecidableEq, Repr

/-- Modelled from the spec: the add/merge operation of the resource
collector is not among the available source files (spec section 4.4 notes it
is owned by the scanning logic; only the collector struct, its constructor
and the audit appear in the source). Spec sections 3 and 4.4: the registry
maps name to `PrePackagedResource`; "any attempt to add a resource whose
home location is not in the allowed set must be rejected before mutating the
registry", where extension modules are checked against the separate
extension-module location set; on success the contribution is merged into
the registry under its name. -/
def PythonResourceCollector.add_resource (c : PythonResourceCollector)
    (location : ConcreteResourceLocation) (is_extension_module : Bool)
    (resource : PrePackagedResource) : Except CollectorError PythonResourceCollector :=
  let allowed :=
    if is_extension_module then c.allowed_extension_module_locations else c.allowed_locations
  if AbstractResourceLocation.fromConcrete location ∈ allowed then
    .ok { c with resources := btreeMapInsert c.resources resource.name resource }
  else
    .error (.locationNotAllowed resource.name)

/-- Two directory trees with the same contents up to the order in which the
operating system happens to list each directory: equal names, and children
lists that agree up to permutation, recursively. Relates two runs of the
header-file walk over the same fixed tree. -/
inductive TreeEquiv : FsTree → FsTree → Prop where
  | file (n : String) : TreeEquiv (.file n) (.file n)
  | dir (n : String) (ts us vs : List FsTree) (hp : ts.Perm vs)
      (hlen : vs.length = us.length)
      (h : ∀ p, p ∈ vs.zip us → TreeEquiv p.1 p.2) :
      TreeEquiv (.dir n ts) (.dir n us)

/-- A directory tree that can occur on a real filesystem: the children of
every directory have pairwise distinct names. -/
inductive TreeWF : FsTree → Prop where
  | file (n : String) : TreeWF (.file n)
  | dir (n : String) (ts : List FsTree) (hnodup : (ts.map fsName).Nodup)
      (hch : ∀ c ∈ ts, TreeWF c) : TreeWF (.dir n ts)

/-- A concrete resource whose in-memory source declares `# coding: latin-1`
and references `__file__`, used to evaluate the audit. -/
def sampleAuditResource : PrePackagedResource :=
  { PrePackagedResource.empty "mod" with
      in_memory_source :=
        some (FileData.Memory (strBytes "# coding: latin-1\nx = __file__\n")) }

/-- A concrete collector holding only `sampleAuditResource`. -/
def sampleAuditCollector : PythonResourceCollector :=
  { allowed_locations := [AbstractResourceLocation.InMemory]
    allowed_extension_module_locations := []
    allow_new_builtin_extension_modules := false
    allow_files := false
    resources := [("mod", sampleAuditResource)] }

/-- A concrete packaging policy used to evaluate the registration
operations (the field values of `PythonPackagingPolicy::default()`, with the
two location fields - which that impl fails to initialize - set
explicitly). -/
def samplePolicy : PythonPackagingPolicy :=
  { preferred_extension_module_variants := []
    resources_location := ConcreteResourceLocation.InMemory
    resources_location_fallback := none
    allow_in_memory_shared_library_loading := false
    allow_files := false
    file_scanner_emit_files := false
    file_scanner_classify_files := true
    include_classified_resources := true
    include_distribution_sources := true
    include_non_distribution_sources := true
    include_distribution_resources := false
    include_test := false
    include_file_resources := false
    broken_extensions := []
    bytecode_optimize_level_zero := true
    bytecode_optimize_level_one := false
    bytecode_optimize_level_two := false
    no_bytecode_modules := [] }

/-- Helper: `splitFirstColon` on a colon-free segment followed by a colon
splits exactly there. -/
theorem splitFirstColon_append (a : List Char) (ha : ':' ∉ a) (b : List Char) :
    splitFirstColon (a ++ ':' :: b) = some (a, b) := by
  induction a with
  | nil => simp [splitFirstColon]
  | cons c t ih =>
    have hc : ¬(c = ':') := by
      intro h
      exact ha (h ▸ List.mem_cons_self c t)
    simp [splitFirstColon, hc, ih (fun h => ha (List.mem_cons_of_mem _ h))]

/-- C9: converting any `ConcreteResourceLocation` to its string form and
parsing that string back always succeeds and yields the original value;
`InMemory` renders as "in-memory" and every `RelativePath pfx` renders as
"filesystem-relative:" followed by the prefix. -/
theorem concrete_resource_location_roundtrip (loc : ConcreteResourceLocation) :
    ConcreteResourceLocation.to_string ConcreteResourceLocation.InMemory = "in-memory" ∧
    (∀ pfx, ConcreteResourceLocation.to_string (ConcreteResourceLocation.RelativePath pfx)
        = "filesystem-relative:" ++ pfx) ∧
    ConcreteResourceLocation.try_from loc.to_string = Except.ok loc := by
  refine ⟨rfl, fun _ => rfl, ?_⟩
  cases loc with
  | InMemory => rfl
  | RelativePath pfx =>
    have hne : ¬(("filesystem-relative:" ++ pfx : String) = "in-memory") := by
      intro h
      have hlen := congrArg String.length h
      rw [String.length_append] at hlen
      have h1 : ("filesystem-relative:" : String).length = 20 := rfl
      have h2 : ("in-memory" : String).length = 9 := rfl
      omega
    have hdata : ("filesystem-relative:" ++ pfx).data
        = ("filesystem-relative" : String).data ++ ':' :: pfx.data := by
      rw [String.data_append]
      rfl
    have hsplit := splitFirstColon_append ("filesystem-relative" : String).data
      (by decide) pfx.data
    show ConcreteResourceLocation.try_from ("filesystem-relative:" ++ pfx) = _
    unfold ConcreteResourceLocation.try_from
    rw [if_neg hne, hdata, hsplit]
    simp

/-- C10: `FileData::to_memory` always returns the `Memory` variant on
success, holding exactly the bytes `resolve_content` returns; in particular
a memory-backed value passes through both functions unchanged. -/
theorem to_memory_memory_variant (fs : String → Option (List Nat)) (fd r : FileData)
    (h : fd.to_memory fs = Except.ok r) :
    (∃ b, r = FileData.Memory b ∧ fd.resolve_content fs = Except.ok b) ∧
      ∀ b, (FileData.Memory b).to_memory fs = Except.ok (FileData.Memory b) ∧
        (FileData.Memory b).resolve_content fs = Except.ok b := by
  constructor
  · cases hrc : fd.resolve_content fs with
    | ok b =>
      rw [FileData.to_memory, hrc] at h
      simp only [Except.map] at h
      injection h with h2
      exact ⟨b, h2.symm, rfl⟩
    | error e =>
      rw [FileData.to_memory, hrc] at h
      simp only [Except.map] at h
      exact absurd h (by simp)
  · intro b
    exact ⟨rfl, rfl⟩

/-- Witness for C10 at a concrete memory-backed value. -/
theorem to_memory_memory_variant_witness :
    (∃ b, (FileData.Memory [1, 2] : FileData) = FileData.Memory b ∧
        (FileData.Memory [1, 2]).resolve_content (fun _ => none) = Except.ok b) ∧
      ∀ b, (FileData.Memory b).to_memory (fun _ => none) = Except.ok (FileData.Memory b) ∧
        (FileData.Memory b).resolve_content (fun _ => none) = Except.ok b :=
  to_memory_memory_variant (fun _ => none) (FileData.Memory [1, 2]) (FileData.Memory [1, 2]) rfl

/-- C3: the in-memory shared-library loadability query holds exactly when
the target triple contains "pc-windows", symbol visibility is "dllexport",
and the extension-module loading capabilities include "shared-library". -/
theorem supports_in_memory_shared_library_loading_iff (d : StandaloneDistribution) :
    d.supports_in_memory_shared_library_loading = true ↔
      (strContains d.target_triple "pc-windows" = true ∧
        d.python_symbol_visibility = "dllexport" ∧
        "shared-library" ∈ d.extension_module_loading) := by
  simp [StandaloneDistribution.supports_in_memory_shared_library_loading,
    Bool.and_eq_true, and_assoc]

/-- C1: parsing a manifest whose `version` field holds a string other than
"7" fails with the version-mismatch error carrying that string, for every
strict-schema deserializer (so the strict pass is never reached). -/
theorem parse_python_json_version_mismatch
    (fields : List (String × Json)) (s : String) (deser : Json → Option PythonJsonMain)
    (hv : fields.lookup "version" = some (Json.str s)) (hs : s ≠ "7") :
    parse_python_json true (some (Json.obj fields)) deser
      = Except.error (ManifestError.versionMismatch s) := by
  simp [parse_python_json, Json.as_object, hv, Json.as_str, hs]

/-- Witness for C1 at a concrete manifest document with version "8". -/
theorem parse_python_json_version_mismatch_witness :
    ([("version", Json.str "8")].lookup "version" = some (Json.str "8")) ∧
      (("8" : String) ≠ "7") ∧
      parse_python_json true (some (Json.obj [("version", Json.str "8")])) (fun _ => none)
        = Except.error (ManifestError.versionMismatch "8") :=
  ⟨rfl, by decide, parse_python_json_version_mismatch _ _ _ rfl (by decide)⟩

/-- C4: an addition whose requested home location is not among the allowed
locations of the collector (the extension-module set for extension modules)
is rejected with an error naming the resource; because the collector is
returned only on success, the registry is left unchanged. -/
theorem add_resource_rejected (c : PythonResourceCollector)
    (location : ConcreteResourceLocation) (is_extension_module : Bool)
    (resource : PrePackagedResource)
    (h : AbstractResourceLocation.fromConcrete location ∉
      (if is_extension_module then c.allowed_extension_module_locations
        else c.allowed_locations)) :
    c.add_resource location is_extension_module resource
      = Except.error (CollectorError.locationNotAllowed resource.name) := by
  cases is_extension_module <;>
    simp_all [PythonResourceCollector.add_resource]

/-- Witness for C4: a relative-path extension-module addition against a
collector permitting only in-memory extension locations. -/
theorem add_resource_rejected_witness :
    (PythonResourceCollector.new [AbstractResourceLocation.InMemory]
        [AbstractResourceLocation.InMemory] false false).add_resource
        (ConcreteResourceLocation.RelativePath "lib") true (PrePackagedResource.empty "foo")
      = Except.error (CollectorError.locationNotAllowed
          (PrePackagedResource.empty "foo").name) :=
  add_resource_rejected _ _ _ _ (by decide)

/-- Helper: a root listing containing an entry other than `python` or
`.DS_Store` (including a non-UTF-8 name) makes the root check fail. -/
theorem check_root_entries_fails (l : List (Option String))
    (h : ∃ e ∈ l, e ≠ some "python" ∧ e ≠ some ".DS_Store") :
    ∃ err, check_root_entries l = Except.error err := by
  induction l with
  | nil =>
    rcases h with ⟨e, he, _⟩
    cases he
  | cons a t ih =>
    by_cases h1 : a = some ".DS_Store"
    · subst h1
      have ht : ∃ e ∈ t, e ≠ some "python" ∧ e ≠ some ".DS_Store" := by
        rcases h with ⟨e, he, hne⟩
        rcases List.mem_cons.mp he with he2 | he2
        · exact absurd he2 hne.2
        · exact ⟨e, he2, hne⟩
      simpa [check_root_entries] using ih ht
    · by_cases h2 : a = some "python"
      · subst h2
        have ht : ∃ e ∈ t, e ≠ some "python" ∧ e ≠ some ".DS_Store" := by
          rcases h with ⟨e, he, hne⟩
          rcases List.mem_cons.mp he with he2 | he2
          · exact absurd he2 hne.1
          · exact ⟨e, he2, hne⟩
        simpa [check_root_entries] using ih ht
      · rcases a with _ | v
        · exact ⟨DistError.rootListError, rfl⟩
        · refine ⟨DistError.unexpectedRootEntry v, ?_⟩
          have hv1 : ¬(v = ".DS_Store") := fun hv => h1 (by rw [hv])
          have hv2 : ¬(v = "python") := fun hv => h2 (by rw [hv])
          simp [check_root_entries, hv1, hv2]

/-- C2: a distribution root listing with any entry other than the `python`
subdirectory or `.DS_Store` makes resolution fail, and the outcome is the
same for every manifest state, schema deserializer, directory tree and
python/ listing - so the failure happens before the manifest is ever
parsed. -/
theorem from_directory_bad_root (dist_dir1 dist_dir2 : String) (st1 st2 : DistDirState)
    (deser1 deser2 : Json → Option PythonJsonMain)
    (hroot : st2.rootEntries = st1.rootEntries)
    (h : ∃ e ∈ st1.rootEntries, e ≠ some "python" ∧ e ≠ some ".DS_Store") :
    (∃ err, from_directory dist_dir1 st1 deser1 = Except.error err) ∧
      from_directory dist_dir1 st1 deser1 = from_directory dist_dir2 st2 deser2 := by
  obtain ⟨err, herr⟩ := check_root_entries_fails st1.rootEntries h
  have key : ∀ (dd : String) (st : DistDirState) (ds : Json → Option PythonJsonMain),
      st.rootEntries = st1.rootEntries → from_directory dd st ds = Except.error err := by
    intro dd st ds hst
    unfold from_directory
    rw [hst, herr]
    rfl
  exact ⟨⟨err, key _ _ _ rfl⟩, by rw [key _ _ _ rfl, key _ _ _ hroot]⟩

/-- Witness for C2 at a concrete listing containing the entry `evil`. -/
theorem from_directory_bad_root_witness :
    (∃ err, from_directory "d1"
        { rootEntries := [some "python", some "evil"], pythonEntries := [],
          manifestExists := false, manifestDoc := none,
          dirTree := fun _ => FsTree.file "x" } (fun _ => none) = Except.error err) ∧
      from_directory "d1"
        { rootEntries := [some "python", some "evil"], pythonEntries := [],
          manifestExists := false, manifestDoc := none,
          dirTree := fun _ => FsTree.file "x" } (fun _ => none)
      = from_directory "d2"
        { rootEntries := [some "python", some "evil"], pythonEntries := [some "junk"],
          manifestExists := true, manifestDoc := some (Json.obj []),
          dirTree := fun _ => FsTree.file "y" } (fun _ => none) :=
  from_directory_bad_root _ _ _ _ _ _ rfl
    ⟨some "evil", by simp, by decide, by decide⟩



/-- Helper: lookup after `assocInsert`. -/
theorem lookup_assocInsert_eq {β : Type} (m : List (String × β)) (k : String) (v : β)
    (k2 : String) :
    (assocInsert m k v).lookup k2 = if k2 = k then some v else m.lookup k2 := by
  induction m with
  | nil =>
    by_cases h : k2 = k
    · subst h
      simp [assocInsert, List.lookup]
    · have hb : (k2 == k) = false := beq_eq_false_iff_ne.mpr h
      simp [assocInsert, List.lookup, hb, h]
  | cons kv t ih =>
    obtain ⟨k0, v0⟩ := kv
    by_cases hk : k0 = k
    · subst hk
      by_cases h2 : k2 = k0
      · subst h2
        simp [assocInsert, List.lookup]
      · have hb : (k2 == k0) = false := beq_eq_false_iff_ne.mpr h2
        simp [assocInsert, List.lookup, hb, h2]
    · by_cases h2 : k2 = k0
      · have hbt : (k2 == k0) = true := by simp [h2]
        have hne : ¬(k2 = k) := fun hx => hk (h2.symm.trans hx)
        simp [assocInsert, List.lookup, hk, hbt, hne]
      · have hb : (k2 == k0) = false := beq_eq_false_iff_ne.mpr h2
        simp [assocInsert, List.lookup, hk, hb, h2, ih]

/-- Helper: lookup after `mapPushAt`. -/
theorem lookup_mapPushAt_eq (m : List (String × List String)) (k v : String) (k2 : String) :
    (PythonPackagingPolicy.mapPushAt m k v).lookup k2
      = if k2 = k then (m.lookup k).map (fun l => l ++ [v]) else m.lookup k2 := by
  induction m with
  | nil =>
    by_cases h : k2 = k
    · subst h
      simp [PythonPackagingPolicy.mapPushAt, List.lookup]
    · simp [PythonPackagingPolicy.mapPushAt, List.lookup, h]
  | cons kv t ih =>
    obtain ⟨k0, v0⟩ := kv
    by_cases hk : k0 = k
    · subst hk
      by_cases h2 : k2 = k0
      · subst h2
        simp [PythonPackagingPolicy.mapPushAt, List.lookup]
      · have hb : (k2 == k0) = false := beq_eq_false_iff_ne.mpr h2
        simp [PythonPackagingPolicy.mapPushAt, List.lookup, hb, h2]
    · by_cases h2 : k2 = k0
      · have hbt : (k2 == k0) = true := by simp [h2]
        have hne : ¬(k2 = k) := fun hx => hk (h2.symm.trans hx)
        simp [PythonPackagingPolicy.mapPushAt, List.lookup, hk, hbt, hne]
      · have hb : (k2 == k0) = false := beq_eq_false_iff_ne.mpr h2
        have hb2 : (k == k0) = false := beq_eq_false_iff_ne.mpr (Ne.symm hk)
        simp [PythonPackagingPolicy.mapPushAt, List.lookup, hk, hb, hb2, h2, ih]

/-- Helper: the broken-extension list after one registration, at every
triple. -/
theorem broken_list_register (p : PythonPackagingPolicy) (t e t2 : String) :
    (p.register_broken_extension t e).broken_list t2
      = if t2 = t then p.broken_list t ++ [e] else p.broken_list t2 := by
  unfold PythonPackagingPolicy.register_broken_extension PythonPackagingPolicy.broken_list
  by_cases hc : PythonPackagingPolicy.mapContainsKey p.broken_extensions t
  · simp only [hc, if_true, lookup_mapPushAt_eq]
    by_cases h2 : t2 = t
    · subst h2
      unfold PythonPackagingPolicy.mapContainsKey at hc
      cases hx : p.broken_extensions.lookup t2 with
      | none => rw [hx] at hc; simp at hc
      | some L => simp [hx]
    · simp [h2]
  · simp only [hc, if_false, lookup_mapPushAt_eq]
    by_cases h2 : t2 = t
    · subst h2
      have hnone : p.broken_extensions.lookup t2 = none := by
        unfold PythonPackagingPolicy.mapContainsKey at hc
        cases hx : p.broken_extensions.lookup t2 with
        | none => rfl
        | some _ => rw [hx] at hc; simp at hc
      rw [if_pos rfl, if_pos rfl, if_neg Bool.false_ne_true,
        lookup_assocInsert_eq, if_pos rfl]
      simp [hnone]
    · rw [if_neg h2, if_neg h2, if_neg Bool.false_ne_true,
        lookup_assocInsert_eq, if_neg h2]

/-- Counterexample for C5: registering the same broken (triple, extension)
pair twice does not leave the policy equal to registering it once - the
per-triple list receives a duplicate entry, because the push is
unconditional. -/
theorem register_broken_extension_not_idempotent :
    (samplePolicy.register_broken_extension "aarch64-apple-darwin"
          "_crypt").register_broken_extension "aarch64-apple-darwin" "_crypt"
      ≠ samplePolicy.register_broken_extension "aarch64-apple-darwin" "_crypt" := by
  decide

/-- C5 as amended: registering a module as bytecode-exempt twice is
idempotent; registering the same broken (triple, extension) pair twice is
not - it appends a duplicate entry to the list stored for the triple -
although the membership of every (triple, extension) pair is unchanged by
the second registration. -/
theorem register_operations_idempotence :
    (∀ (p : PythonPackagingPolicy) (name : String),
        (p.register_no_bytecode_module name).register_no_bytecode_module name
          = p.register_no_bytecode_module name) ∧
    (∀ (p : PythonPackagingPolicy) (t e : String),
        ((p.register_broken_extension t e).register_broken_extension t e).broken_list t
          = (p.register_broken_extension t e).broken_list t ++ [e]) ∧
    (∀ (p : PythonPackagingPolicy) (t e t2 e2 : String),
        (e2 ∈ ((p.register_broken_extension t e).register_broken_extension t e).broken_list t2
          ↔ e2 ∈ (p.register_broken_extension t e).broken_list t2)) := by
  refine ⟨?_, ?_, ?_⟩
  · intro p name
    unfold PythonPackagingPolicy.register_no_bytecode_module
    by_cases h : name ∈ p.no_bytecode_modules
    · simp [h]
    · simp [h]
  · intro p t e
    rw [broken_list_register, if_pos rfl]
  · intro p t e t2 e2
    by_cases h : t2 = t
    · subst h
      rw [broken_list_register, if_pos rfl, broken_list_register, if_pos rfl]
      simp [List.mem_append]
    · rw [broken_list_register, if_neg h]

/-- C6 (divergence witness): on a source that declares `# coding: latin-1`,
`python_source_encoding` returns the bytes of the whole regex match -
including the leading `# coding: ` text - rather than the declared encoding
name `latin-1` captured by the regex group; consequently the audit cannot
resolve the result as an encoding label and falls back to UTF-8. -/
theorem python_source_encoding_returns_full_match :
    python_source_encoding (strBytes "# coding: latin-1\nx = __file__\n")
        = strBytes "# coding: latin-1" ∧
      strBytes "# coding: latin-1" ≠ strBytes "latin-1" ∧
      for_label (python_source_encoding (strBytes "# coding: latin-1\nx = __file__\n"))
        = none := by
  refine ⟨by decide, by decide, by decide⟩

/-- Helper: an ASCII byte steps to itself from the accept state. -/
theorem utf8StepStart_ascii (b : Nat) (hb : b ≤ 0x7F) :
    utf8StepStart b = ([b], Utf8State.accept) := by
  simp [utf8StepStart, hb]

/-- Helper: every state produced by `utf8StepStart` is reachable-good, and
its output and state have one of three shapes: an ASCII byte emitted as
itself, a replacement character for an invalid byte, or no output with a
good in-sequence state. -/
theorem utf8StepStart_cases (b : Nat) :
    (b ≤ 0x7F ∧ utf8StepStart b = ([b], Utf8State.accept)) ∨
    (utf8StepStart b = ([0xFFFD], Utf8State.accept)) ∨
    (∃ cp more loOff hi, utf8StepStart b = ([], Utf8State.need cp more loOff hi) ∧
      GoodState (Utf8State.need cp more loOff hi)) := by
  unfold utf8StepStart
  by_cases h1 : b ≤ 0x7F
  · exact Or.inl ⟨h1, by simp [h1]⟩
  · rw [if_neg h1]
    by_cases h2 : 0xC2 ≤ b ∧ b ≤ 0xDF
    · refine Or.inr (Or.inr ⟨b - 0xC0, 1, 0, 0xBF, by rw [if_pos h2], by omega, ?_⟩)
      have h64 : (64:ℕ) ^ (1 - 1) = 1 := by norm_num
      rw [h64]
      omega
    · rw [if_neg h2]
      by_cases h3 : b = 0xE0
      · refine Or.inr (Or.inr ⟨0, 2, 0x20, 0xBF, by rw [if_pos h3], by omega, ?_⟩)
        norm_num
      · rw [if_neg h3]
        by_cases h4 : 0xE1 ≤ b ∧ b ≤ 0xEC
        · refine Or.inr (Or.inr ⟨b - 0xE0, 2, 0, 0xBF, by rw [if_pos h4], by omega, ?_⟩)
          have h64 : (64:ℕ) ^ (2 - 1) = 64 := by norm_num
          rw [h64]
          omega
        · rw [if_neg h4]
          by_cases h5 : b = 0xED
          · refine Or.inr (Or.inr ⟨13, 2, 0, 0x9F, by rw [if_pos h5], by omega, ?_⟩)
            norm_num
          · rw [if_neg h5]
            by_cases h6 : 0xEE ≤ b ∧ b ≤ 0xEF
            · refine Or.inr (Or.inr ⟨b - 0xE0, 2, 0, 0xBF, by rw [if_pos h6],
                by omega, ?_⟩)
              have h64 : (64:ℕ) ^ (2 - 1) = 64 := by norm_num
              rw [h64]
              omega
            · rw [if_neg h6]
              by_cases h7 : b = 0xF0
              · refine Or.inr (Or.inr ⟨0, 3, 0x10, 0xBF, by rw [if_pos h7],
                  by omega, ?_⟩)
                norm_num
              · rw [if_neg h7]
                by_cases h8 : 0xF1 ≤ b ∧ b ≤ 0xF3
                · refine Or.inr (Or.inr ⟨b - 0xF0, 3, 0, 0xBF, by rw [if_pos h8],
                    by omega, ?_⟩)
                  have h64 : (64:ℕ) ^ (3 - 1) = 4096 := by norm_num
                  rw [h64]
                  omega
                · rw [if_neg h8]
                  by_cases h9 : b = 0xF4
                  · refine Or.inr (Or.inr ⟨4, 3, 0, 0x8F, by rw [if_pos h9],
                      by omega, ?_⟩)
                    norm_num
                  · rw [if_neg h9]
                    exact Or.inr (Or.inl rfl)

/-- Equation: one decoder step from the accept state. -/
theorem utf8DecodeAux_accept_cons (b : Nat) (rest : List Nat) :
    utf8DecodeAux Utf8State.accept (b :: rest)
      = (utf8StepStart b).1 ++ utf8DecodeAux (utf8StepStart b).2 rest := rfl

/-- Equation: the final valid continuation byte emits the code point. -/
theorem utf8DecodeAux_need_cons_emit (cp loOff hi b : Nat) (rest : List Nat)
    (hc : 0x80 + loOff ≤ b ∧ b ≤ hi) :
    utf8DecodeAux (Utf8State.need cp 1 loOff hi) (b :: rest)
      = (cp * 64 + (b - 0x80)) :: utf8DecodeAux Utf8State.accept rest := by
  simp only [utf8DecodeAux]
  rw [if_pos hc]
  simp

/-- Equation: a valid continuation byte with more bytes still needed
advances the state. -/
theorem utf8DecodeAux_need_cons_next (cp more loOff hi b : Nat) (rest : List Nat)
    (hc : 0x80 + loOff ≤ b ∧ b ≤ hi) (hm : ¬(more = 1)) :
    utf8DecodeAux (Utf8State.need cp more loOff hi) (b :: rest)
      = utf8DecodeAux (Utf8State.need (cp * 64 + (b - 0x80)) (more - 1) 0 0xBF) rest := by
  simp only [utf8DecodeAux]
  rw [if_pos hc, if_neg hm]

/-- Equation: an out-of-range byte inside a sequence emits U+FFFD and is
reprocessed from the accept state. -/
theorem utf8DecodeAux_need_cons_bad (cp more loOff hi b : Nat) (rest : List Nat)
    (hc : ¬(0x80 + loOff ≤ b ∧ b ≤ hi)) :
    utf8DecodeAux (Utf8State.need cp more loOff hi) (b :: rest)
      = 0xFFFD :: ((utf8StepStart b).1 ++ utf8DecodeAux (utf8StepStart b).2 rest) := by
  simp only [utf8DecodeAux]
  rw [if_neg hc]

/-- Helper: consuming a valid continuation byte with more than one byte
still needed preserves goodness. -/
theorem goodState_step (cp more loOff hi b : Nat)
    (hg : GoodState (Utf8State.need cp more loOff hi))
    (hb : 0x80 + loOff ≤ b) (hm : ¬(more = 1)) :
    GoodState (Utf8State.need (cp * 64 + (b - 0x80)) (more - 1) 0 0xBF) := by
  obtain ⟨hm1, hmeas⟩ := hg
  obtain ⟨k, hk⟩ : ∃ k, more = k + 2 := ⟨more - 2, by omega⟩
  subst hk
  refine ⟨by omega, ?_⟩
  have e2 : k + 2 - 1 - 1 = k := rfl
  have e1 : k + 2 - 1 = k + 1 := rfl
  rw [e2]
  rw [e1, pow_succ] at hmeas
  have hcp2 : (cp * 64 + loOff) ≤ (cp * 64 + (b - 0x80)) := by omega
  calc (0x80:ℕ)
      ≤ (cp * 64 + loOff) * (64 ^ k * 64) := hmeas
    _ = ((cp * 64 + loOff) * 64) * 64 ^ k := by ring
    _ ≤ ((cp * 64 + (b - 0x80)) * 64 + 0) * 64 ^ k := by
        refine Nat.mul_le_mul_right _ ?_
        have := Nat.mul_le_mul_right 64 hcp2
        omega

/-- Helper: the code point emitted when the final continuation byte of a
good in-sequence state arrives is at least 0x80 (never ASCII). -/
theorem goodState_emit (cp loOff hi b : Nat)
    (hg : GoodState (Utf8State.need cp 1 loOff hi))
    (hb : 0x80 + loOff ≤ b) :
    0x80 ≤ cp * 64 + (b - 0x80) := by
  obtain ⟨hm1, hmeas⟩ := hg
  have h64 : (64:ℕ) ^ (1 - 1) = 1 := by norm_num
  rw [h64, mul_one] at hmeas
  omega

/-- Helper: from a good in-sequence state the decoder output is nonempty
and starts with a code point of at least 0x80 (a completed multi-byte code
point or U+FFFD) - never an ASCII character. -/
theorem utf8DecodeAux_need_head (bs : List Nat) :
    ∀ cp more loOff hi, GoodState (Utf8State.need cp more loOff hi) →
      ∃ c out, utf8DecodeAux (Utf8State.need cp more loOff hi) bs = c :: out ∧ 0x80 ≤ c := by
  induction bs with
  | nil =>
    intro cp more loOff hi _
    exact ⟨0xFFFD, [], rfl, by norm_num⟩
  | cons b rest ih =>
    intro cp more loOff hi hg
    by_cases hc : 0x80 + loOff ≤ b ∧ b ≤ hi
    · by_cases hm : more = 1
      · subst hm
        exact ⟨cp * 64 + (b - 0x80), utf8DecodeAux Utf8State.accept rest,
          utf8DecodeAux_need_cons_emit cp loOff hi b rest hc,
          goodState_emit cp loOff hi b hg hc.1⟩
      · obtain ⟨c, out, hout, hcge⟩ :=
          ih (cp * 64 + (b - 0x80)) (more - 1) 0 0xBF
            (goodState_step cp more loOff hi b hg hc.1 hm)
        exact ⟨c, out, (utf8DecodeAux_need_cons_next cp more loOff hi b rest hc hm).trans hout,
          hcge⟩
    · exact ⟨0xFFFD, (utf8StepStart b).1 ++ utf8DecodeAux (utf8StepStart b).2 rest,
        utf8DecodeAux_need_cons_bad cp more loOff hi b rest hc, by norm_num⟩

/-- Helper: decoding never consumes past a position where an ASCII byte (or
the end of input) follows: the output splits there, with decoding resuming
from the accept state. Continuation bytes are at least 0x80, so an ASCII
byte always terminates a pending sequence. -/
theorem utf8DecodeAux_split_at_ascii (l : List Nat) :
    ∀ (st : Utf8State) (m : List Nat),
      (m = [] ∨ ∃ b bs, m = b :: bs ∧ b ≤ 0x7F) →
      ∃ out, utf8DecodeAux st (l ++ m) = out ++ utf8DecodeAux Utf8State.accept m := by
  induction l with
  | nil =>
    intro st m hm
    cases st with
    | accept => exact ⟨[], rfl⟩
    | need cp more loOff hi =>
      rcases hm with rfl | ⟨b, bs, rfl, hb⟩
      · exact ⟨[0xFFFD], rfl⟩
      · have hcond : ¬(0x80 + loOff ≤ b ∧ b ≤ hi) := by omega
        refine ⟨[0xFFFD], ?_⟩
        rw [List.nil_append, utf8DecodeAux_need_cons_bad cp more loOff hi b bs hcond,
          utf8DecodeAux_accept_cons]
        rfl
  | cons a l2 ih =>
    intro st m hm
    cases st with
    | accept =>
      rw [List.cons_append, utf8DecodeAux_accept_cons]
      obtain ⟨out, hout⟩ := ih (utf8StepStart a).2 m hm
      exact ⟨(utf8StepStart a).1 ++ out, by rw [hout, List.append_assoc]⟩
    | need cp more loOff hi =>
      rw [List.cons_append]
      by_cases hc : 0x80 + loOff ≤ a ∧ a ≤ hi
      · by_cases hm1 : more = 1
        · subst hm1
          rw [utf8DecodeAux_need_cons_emit cp loOff hi a (l2 ++ m) hc]
          obtain ⟨out, hout⟩ := ih Utf8State.accept m hm
          exact ⟨(cp * 64 + (a - 0x80)) :: out, by rw [hout, List.cons_append]⟩
        · rw [utf8DecodeAux_need_cons_next cp more loOff hi a (l2 ++ m) hc hm1]
          exact ih _ m hm
      · rw [utf8DecodeAux_need_cons_bad cp more loOff hi a (l2 ++ m) hc]
        obtain ⟨out, hout⟩ := ih (utf8StepStart a).2 m hm
        refine ⟨0xFFFD :: ((utf8StepStart a).1 ++ out), ?_⟩
        rw [hout, List.cons_append, List.append_assoc]

/-- Helper: a run of ASCII bytes decodes to itself, position by position. -/
theorem utf8DecodeAux_ascii_run (p : List Nat) (hp : ∀ b ∈ p, b ≤ 0x7F) (m : List Nat) :
    utf8DecodeAux Utf8State.accept (p ++ m) = p ++ utf8DecodeAux Utf8State.accept m := by
  induction p with
  | nil => rfl
  | cons b t ih =>
    have hb : b ≤ 0x7F := hp b (List.mem_cons_self _ _)
    rw [List.cons_append, utf8DecodeAux_accept_cons, utf8StepStart_ascii b hb,
      ih (fun x hx => hp x (List.mem_cons_of_mem _ hx)), List.cons_append]
    rfl

/-- Helper: a list starts with itself followed by anything. -/
theorem startsWithSeq_append_self {α : Type} [DecidableEq α] (p rest : List α) :
    startsWithSeq (p ++ rest) p = true := by
  induction p with
  | nil =>
    cases rest <;> rfl
  | cons b t ih =>
    simp [startsWithSeq, ih]

/-- Helper: a prefix match is in particular a containment. -/
theorem containsSeq_of_startsWith {α : Type} [DecidableEq α] (l p : List α)
    (h : startsWithSeq l p = true) : containsSeq l p = true := by
  cases l with
  | nil => exact h
  | cons a t => simp [containsSeq, h]

/-- Helper: containment is preserved by prepending. -/
theorem containsSeq_append_left {α : Type} [DecidableEq α] (pre l p : List α)
    (h : containsSeq l p = true) : containsSeq (pre ++ l) p = true := by
  induction pre with
  | nil => exact h
  | cons a t ih =>
    cases ht : t ++ l with
    | nil => simp [containsSeq, ht] at ih ⊢; exact Or.inr ih
    | cons x y => simp [containsSeq, ht] at ih ⊢; exact Or.inr ih

/-- Helper (positive direction of the audit search): the UTF-8 decode of a
byte string containing an ASCII pattern contains the code points of that
pattern. -/
theorem utf8Decode_contains_ascii (l1 l2 p : List Nat)
    (hp : ∀ b ∈ p, b ≤ 0x7F) (hne : p ≠ []) :
    containsSeq (utf8Decode (l1 ++ p ++ l2)) p = true := by
  obtain ⟨b, bs, rfl⟩ := List.exists_cons_of_ne_nil hne
  have hshape : (b :: bs) ++ l2 = [] ∨
      ∃ c cs, (b :: bs) ++ l2 = c :: cs ∧ c ≤ 0x7F :=
    Or.inr ⟨b, bs ++ l2, rfl, hp b (List.mem_cons_self _ _)⟩
  obtain ⟨out, hout⟩ := utf8DecodeAux_split_at_ascii l1 Utf8State.accept ((b :: bs) ++ l2) hshape
  unfold utf8Decode
  rw [List.append_assoc, hout, utf8DecodeAux_ascii_run (b :: bs) hp l2]
  exact containsSeq_append_left out _ _
    (containsSeq_of_startsWith _ _ (startsWithSeq_append_self (b :: bs) _))

/-- Helper (reverse direction, prefixes): if the decode of `bs` starts with
an ASCII sequence `q`, then `bs` itself starts with `q`: ASCII output
characters arise only from the identical input bytes. -/
theorem utf8DecodeAux_startsWith_rev (bs : List Nat) :
    ∀ (st : Utf8State), GoodState st → ∀ (q : List Nat), (∀ x ∈ q, x ≤ 0x7F) →
      startsWithSeq (utf8DecodeAux st bs) q = true → startsWithSeq bs q = true := by
  induction bs with
  | nil =>
    intro st hg q hq h
    cases q with
    | nil => rfl
    | cons qb qt =>
      have hqb := hq qb (List.mem_cons_self _ _)
      cases st with
      | accept => exact absurd h (by simp [utf8DecodeAux, startsWithSeq])
      | need cp more loOff hi =>
        have hne : ¬((0xFFFD : Nat) = qb) := by omega
        simp only [utf8DecodeAux, startsWithSeq, hne, if_neg] at h
        exact absurd h (by simp)
  | cons b rest ih =>
    intro st hg q hq h
    cases q with
    | nil => rfl
    | cons qb qt =>
      have hqb := hq qb (List.mem_cons_self _ _)
      have hqt : ∀ x ∈ qt, x ≤ 0x7F := fun x hx => hq x (List.mem_cons_of_mem _ hx)
      cases st with
      | accept =>
        rw [utf8DecodeAux_accept_cons] at h
        rcases utf8StepStart_cases b with ⟨hb, hstep⟩ | hstep |
            ⟨cp, more, loOff, hi, hstep, hgood⟩
        · rw [hstep] at h
          simp only [List.singleton_append, startsWithSeq] at h
          by_cases hbq : b = qb
          · rw [if_pos hbq] at h
            have h2 := ih Utf8State.accept trivial qt hqt h
            subst hbq
            simp [startsWithSeq, h2]
          · rw [if_neg hbq] at h
            exact absurd h (by simp)
        · rw [hstep] at h
          have hne : ¬((0xFFFD : Nat) = qb) := by omega
          simp only [List.singleton_append, startsWithSeq, hne, if_neg] at h
          exact absurd h (by simp)
        · rw [hstep, List.nil_append] at h
          obtain ⟨c, out, he, hcge⟩ := utf8DecodeAux_need_head rest cp more loOff hi hgood
          rw [he] at h
          have hne : ¬(c = qb) := by omega
          simp only [startsWithSeq, hne, if_neg] at h
          exact absurd h (by simp)
      | need cp more loOff hi =>
        obtain ⟨c, out, he, hcge⟩ :=
          utf8DecodeAux_need_head (b :: rest) cp more loOff hi hg
        rw [he] at h
        have hne : ¬(c = qb) := by omega
        simp only [startsWithSeq, hne, if_neg] at h
        exact absurd h (by simp)

/-- Helper: one decoder step (from the accept state) reflected through the
containment search. -/
theorem utf8_step_contains_rev (b : Nat) (rest p : List Nat) (hne : p ≠ [])
    (hp : ∀ x ∈ p, x ≤ 0x7F)
    (ihC : ∀ st, GoodState st → containsSeq (utf8DecodeAux st rest) p = true →
      containsSeq rest p = true)
    (h : containsSeq ((utf8StepStart b).1 ++ utf8DecodeAux (utf8StepStart b).2 rest) p
        = true) :
    containsSeq (b :: rest) p = true := by
  obtain ⟨pb, pt, rfl⟩ := List.exists_cons_of_ne_nil hne
  have hpb := hp pb (List.mem_cons_self _ _)
  have hpt : ∀ x ∈ pt, x ≤ 0x7F := fun x hx => hp x (List.mem_cons_of_mem _ hx)
  rcases utf8StepStart_cases b with ⟨hb, hstep⟩ | hstep |
      ⟨cp, more, loOff, hi, hstep, hgood⟩
  · rw [hstep] at h
    simp only [List.singleton_append, containsSeq] at h
    rw [Bool.or_eq_true] at h
    rcases h with h | h
    · simp only [startsWithSeq] at h
      by_cases hbp : b = pb
      · rw [if_pos hbp] at h
        have hrest := utf8DecodeAux_startsWith_rev rest Utf8State.accept trivial pt hpt h
        subst hbp
        simp [containsSeq, startsWithSeq, hrest]
      · rw [if_neg hbp] at h
        exact absurd h (by simp)
    · have hr := ihC Utf8State.accept trivial h
      simp [containsSeq, hr]
  · rw [hstep] at h
    simp only [List.singleton_append, containsSeq] at h
    rw [Bool.or_eq_true] at h
    rcases h with h | h
    · have hne2 : ¬((0xFFFD : Nat) = pb) := by omega
      simp only [startsWithSeq, hne2, if_neg] at h
      exact absurd h (by simp)
    · have hr := ihC Utf8State.accept trivial h
      simp [containsSeq, hr]
  · rw [hstep, List.nil_append] at h
    have hr := ihC (Utf8State.need cp more loOff hi) hgood h
    simp [containsSeq, hr]

/-- Helper (reverse direction of the audit search): if the UTF-8 decode of
`bs` contains a nonempty ASCII pattern, then `bs` contains exactly those
bytes: multi-byte sequences and replacement characters never decode to
ASCII, so a decoded ASCII run corresponds byte for byte to the input. -/
theorem utf8DecodeAux_contains_rev (bs : List Nat) :
    ∀ (st : Utf8State), GoodState st → ∀ (p : List Nat), p ≠ [] →
      (∀ x ∈ p, x ≤ 0x7F) →
      containsSeq (utf8DecodeAux st bs) p = true → containsSeq bs p = true := by
  induction bs with
  | nil =>
    intro st hg p hne hp h
    obtain ⟨pb, pt, rfl⟩ := List.exists_cons_of_ne_nil hne
    have hpb := hp pb (List.mem_cons_self _ _)
    cases st with
    | accept => exact absurd h (by simp [utf8DecodeAux, containsSeq, startsWithSeq])
    | need cp more loOff hi =>
      have hne2 : ¬((0xFFFD : Nat) = pb) := by omega
      simp only [utf8DecodeAux, containsSeq, startsWithSeq, hne2, if_neg] at h
      exact absurd h (by simp)
  | cons b rest ih =>
    intro st hg p hne hp h
    have ihC : ∀ st2, GoodState st2 →
        containsSeq (utf8DecodeAux st2 rest) p = true → containsSeq rest p = true :=
      fun st2 hg2 => ih st2 hg2 p hne hp
    cases st with
    | accept =>
      rw [utf8DecodeAux_accept_cons] at h
      exact utf8_step_contains_rev b rest p hne hp ihC h
    | need cp more loOff hi =>
      by_cases hc : 0x80 + loOff ≤ b ∧ b ≤ hi
      · by_cases hm : more = 1
        · subst hm
          rw [utf8DecodeAux_need_cons_emit cp loOff hi b rest hc] at h
          have hcp2 := goodState_emit cp loOff hi b hg hc.1
          obtain ⟨pb, pt, rfl⟩ := List.exists_cons_of_ne_nil hne
          have hpb := hp pb (List.mem_cons_self _ _)
          simp only [containsSeq] at h
          rw [Bool.or_eq_true] at h
          rcases h with h | h
          · have hne2 : ¬(cp * 64 + (b - 0x80) = pb) := by omega
            simp only [startsWithSeq, hne2, if_neg] at h
            exact absurd h (by simp)
          · have hr := ihC Utf8State.accept trivial h
            simp [containsSeq, hr]
        · rw [utf8DecodeAux_need_cons_next cp more loOff hi b rest hc hm] at h
          have hr := ihC _ (goodState_step cp more loOff hi b hg hc.1 hm) h
          simp [containsSeq, hr]
      · rw [utf8DecodeAux_need_cons_bad cp more loOff hi b rest hc] at h
        obtain ⟨pb, pt, rfl⟩ := List.exists_cons_of_ne_nil hne
        have hpb := hp pb (List.mem_cons_self _ _)
        simp only [containsSeq] at h
        rw [Bool.or_eq_true] at h
        rcases h with h | h
        · have hne2 : ¬((0xFFFD : Nat) = pb) := by omega
          simp only [startsWithSeq, hne2, if_neg] at h
          exact absurd h (by simp)
        · exact utf8_step_contains_rev b rest _ (by simp) hp ihC h

/-- Helper: splitting on newlines separates a newline-free first line. -/
theorem splitOnNl_append (a : List Nat) (ha : (10:Nat) ∉ a) (b : List Nat) :
    splitOnNl (a ++ 10 :: b) = a :: splitOnNl b := by
  induction a with
  | nil => simp [splitOnNl]
  | cons x t ih =>
    have hx : ¬(x = 10) := fun h => ha (h ▸ List.mem_cons_self x t)
    have iht := ih (fun h => ha (List.mem_cons_of_mem _ h))
    simp only [List.cons_append, splitOnNl, hx, if_false, List.append_eq, iht]

/-- Helper: a source that starts with the line `# coding: latin-1` is
sniffed to the full bytes of the regex match, whatever follows the first
newline. -/
theorem python_source_encoding_latin1 (tail : List Nat) :
    python_source_encoding (strBytes "# coding: latin-1\n" ++ tail)
      = strBytes "# coding: latin-1" := by
  have hline : strBytes "# coding: latin-1\n"
      = strBytes "# coding: latin-1" ++ [10] := by decide
  have hsplit : splitOnNl (strBytes "# coding: latin-1\n" ++ tail)
      = strBytes "# coding: latin-1" :: splitOnNl tail := by
    rw [hline, List.append_assoc]
    exact splitOnNl_append _ (by decide) tail
  unfold python_source_encoding
  rw [hsplit]
  have hfind : re_coding_find (strBytes "# coding: latin-1")
      = some (strBytes "# coding: latin-1") := by decide
  cases hx : splitOnNl tail with
  | nil => simp [List.findSome?_cons, hfind]
  | cons l2 ls => simp [List.findSome?_cons, hfind]

/-- Helper: a byte string starting with `#` has no byte order mark. -/
theorem bomSniff_hash (l : List Nat) : bomSniff (35 :: l) = none := rfl

/-- Helper: the audit treats a source with a `# coding: latin-1`
declaration as UTF-8, because the sniffed "encoding" is the full regex
match, which is not a recognized label. -/
theorem has_dunder_file_latin1_encoder (tail : List Nat) :
    has_dunder_file (strBytes "# coding: latin-1\n" ++ tail)
      = containsSeq (utf8Decode (strBytes "# coding: latin-1\n" ++ tail))
          (strBytes "__file__") := by
  have hlab : for_label (strBytes "# coding: latin-1") = none := by decide
  have hbytes : strBytes "# coding: latin-1\n" ++ tail
      = 35 :: (strBytes " coding: latin-1\n" ++ tail) := by
    rw [show strBytes "# coding: latin-1\n" = 35 :: strBytes " coding: latin-1\n" from by decide]
    rfl
  unfold has_dunder_file
  simp only [python_source_encoding_latin1, hlab, Option.getD_none]
  rw [hbytes]
  unfold decodeBytes
  rw [bomSniff_hash]
  rfl

/-- Helper (C7, positive half at the byte level): a source beginning with
the `# coding: latin-1` line and containing the bytes of `__file__` is
flagged by `has_dunder_file`. -/
theorem has_dunder_file_latin1_pos (l1 l2 : List Nat) :
    has_dunder_file (strBytes "# coding: latin-1\n" ++ (l1 ++ strBytes "__file__" ++ l2))
      = true := by
  rw [has_dunder_file_latin1_encoder]
  have hassoc : strBytes "# coding: latin-1\n" ++ (l1 ++ strBytes "__file__" ++ l2)
      = (strBytes "# coding: latin-1\n" ++ l1) ++ strBytes "__file__" ++ l2 := by
    simp [List.append_assoc]
  rw [hassoc]
  exact utf8Decode_contains_ascii _ _ _ (by decide) (by decide)

/-- Helper (C7, negative half at the byte level): a source beginning with
the `# coding: latin-1` line whose bytes nowhere contain `__file__` is not
flagged by `has_dunder_file`. -/
theorem has_dunder_file_latin1_neg (tail : List Nat)
    (h : containsSeq (strBytes "# coding: latin-1\n" ++ tail) (strBytes "__file__")
        = false) :
    has_dunder_file (strBytes "# coding: latin-1\n" ++ tail) = false := by
  rw [has_dunder_file_latin1_encoder]
  cases hx : containsSeq (utf8Decode (strBytes "# coding: latin-1\n" ++ tail))
      (strBytes "__file__") with
  | false => rfl
  | true =>
    have := utf8DecodeAux_contains_rev (strBytes "# coding: latin-1\n" ++ tail)
      Utf8State.accept trivial (strBytes "__file__") (by decide) (by decide) hx
    rw [this] at h
    exact absurd h (by simp)

/-- Helper: destructuring a successful `Except` bind. -/
theorem except_bind_ok {ε α β : Type} (x : Except ε α) (f : α → Except ε β) (c : β)
    (h : (x >>= f) = Except.ok c) : ∃ b, x = Except.ok b ∧ f b = Except.ok c := by
  cases x with
  | error e => simp [Bind.bind, Except.bind] at h
  | ok b => exact ⟨b, rfl, by simpa [Bind.bind, Except.bind] using h⟩

/-- Helper: membership after a sorted-set insert. -/
theorem mem_btreeSetInsert (s : List String) (y x : String) :
    x ∈ btreeSetInsert s y ↔ x = y ∨ x ∈ s := by
  induction s with
  | nil => simp [btreeSetInsert]
  | cons a t ih =>
    by_cases h1 : y < a
    · simp [btreeSetInsert, h1, List.mem_cons]
    · by_cases h2 : y = a
      · subst h2
        simp [btreeSetInsert, h1, List.mem_cons]
      · simp [btreeSetInsert, h1, h2, List.mem_cons, ih]
        tauto

/-- Helper: the per-slot audit check on a populated slot, unfolded. -/
theorem auditCheck_some (fs : String → Option (List Nat)) (n : String)
    (loc : FileData) (res : List String) :
    auditCheck fs n (some loc) res
      = (loc.resolve_content fs >>= fun content =>
          pure (if has_dunder_file content then btreeSetInsert res n else res)) := rfl

/-- Helper: the per-slot audit check on a memory-backed slot. -/
theorem auditCheck_memory (fs : String → Option (List Nat)) (n : String)
    (bytes : List Nat) (res : List String) :
    auditCheck fs n (some (FileData.Memory bytes)) res
      = Except.ok (if has_dunder_file bytes then btreeSetInsert res n else res) := rfl

/-- Helper: a successful per-slot audit check only grows the result set. -/
theorem auditCheck_subset (fs : String → Option (List Nat)) (n : String)
    (slot : Option FileData) (res res2 : List String)
    (h : auditCheck fs n slot res = Except.ok res2) : ∀ x ∈ res, x ∈ res2 := by
  cases slot with
  | none =>
    have : res2 = res := by
      simpa [auditCheck, pure, Except.pure] using h.symm
    subst this
    exact fun x hx => hx
  | some loc =>
    rw [auditCheck_some] at h
    cases hr : loc.resolve_content fs with
    | error e =>
      rw [hr] at h
      simp [Bind.bind, Except.bind] at h
    | ok content =>
      rw [hr] at h
      have : res2 = if has_dunder_file content then btreeSetInsert res n else res := by
        simpa [Bind.bind, Except.bind, pure, Except.pure] using h.symm
      subst this
      by_cases hd : has_dunder_file content
      · simp only [hd, if_true]
        intro x hx
        exact (mem_btreeSetInsert res n x).mpr (Or.inr hx)
      · simp only [hd, if_false]
        exact fun x hx => hx

/-- Helper: a successful per-slot audit check adds at most the audited
name. -/
theorem auditCheck_only (fs : String → Option (List Nat)) (n : String)
    (slot : Option FileData) (res res2 : List String)
    (h : auditCheck fs n slot res = Except.ok res2) : ∀ x ∈ res2, x ∈ res ∨ x = n := by
  cases slot with
  | none =>
    have : res2 = res := by
      simpa [auditCheck, pure, Except.pure] using h.symm
    subst this
    exact fun x hx => Or.inl hx
  | some loc =>
    rw [auditCheck_some] at h
    cases hr : loc.resolve_content fs with
    | error e =>
      rw [hr] at h
      simp [Bind.bind, Except.bind] at h
    | ok content =>
      rw [hr] at h
      have : res2 = if has_dunder_file content then btreeSetInsert res n else res := by
        simpa [Bind.bind, Except.bind, pure, Except.pure] using h.symm
      subst this
      by_cases hd : has_dunder_file content
      · simp only [hd, if_true]
        intro x hx
        rcases (mem_btreeSetInsert res n x).mp hx with rfl | hx2
        · exact Or.inr rfl
        · exact Or.inl hx2
      · simp only [hd, if_false]
        exact fun x hx => Or.inl hx

/-- Helper: a successful per-resource audit only grows the result set. -/
theorem auditResource_subset (fs : String → Option (List Nat)) (n : String)
    (module : PrePackagedResource) (res res2 : List String)
    (h : auditResource fs n module res = Except.ok res2) : ∀ x ∈ res, x ∈ res2 := by
  unfold auditResource at h
  obtain ⟨r1, h1, h⟩ := except_bind_ok _ _ _ h
  obtain ⟨r2, h2, h⟩ := except_bind_ok _ _ _ h
  obtain ⟨r3, h3, h⟩ := except_bind_ok _ _ _ h
  obtain ⟨r4, h4, h⟩ := except_bind_ok _ _ _ h
  have : res2 = r4 := by simpa [pure, Except.pure] using h.symm
  subst this
  intro x hx
  exact auditCheck_subset _ _ _ _ _ h4 x (auditCheck_subset _ _ _ _ _ h3 x
    (auditCheck_subset _ _ _ _ _ h2 x (auditCheck_subset _ _ _ _ _ h1 x hx)))

/-- Helper: a successful per-resource audit adds at most the audited
name. -/
theorem auditResource_only (fs : String → Option (List Nat)) (n : String)
    (module : PrePackagedResource) (res res2 : List String)
    (h : auditResource fs n module res = Except.ok res2) : ∀ x ∈ res2, x ∈ res ∨ x = n := by
  unfold auditResource at h
  obtain ⟨r1, h1, h⟩ := except_bind_ok _ _ _ h
  obtain ⟨r2, h2, h⟩ := except_bind_ok _ _ _ h
  obtain ⟨r3, h3, h⟩ := except_bind_ok _ _ _ h
  obtain ⟨r4, h4, h⟩ := except_bind_ok _ _ _ h
  have : res2 = r4 := by simpa [pure, Except.pure] using h.symm
  subst this
  intro x hx
  rcases auditCheck_only _ _ _ _ _ h4 x hx with hx3 | hx3
  · rcases auditCheck_only _ _ _ _ _ h3 x hx3 with hx2 | hx2
    · rcases auditCheck_only _ _ _ _ _ h2 x hx2 with hx1 | hx1
      · rcases auditCheck_only _ _ _ _ _ h1 x hx1 with hx0 | hx0
        · exact Or.inl hx0
        · exact Or.inr hx0
      · exact Or.inr hx1
    · exact Or.inr hx2
  · exact Or.inr hx3

/-- Helper: auditing a resource whose in-memory source scans positive puts
the resource name into the result set. -/
theorem auditResource_mem_of_source_hit (fs : String → Option (List Nat)) (n : String)
    (module : PrePackagedResource) (res res2 : List String) (bytes : List Nat)
    (hsrc : module.in_memory_source = some (FileData.Memory bytes))
    (hhit : has_dunder_file bytes = true)
    (h : auditResource fs n module res = Except.ok res2) : n ∈ res2 := by
  unfold auditResource at h
  rw [hsrc] at h
  obtain ⟨r1, h1, h⟩ := except_bind_ok _ _ _ h
  obtain ⟨r2, h2, h⟩ := except_bind_ok _ _ _ h
  obtain ⟨r3, h3, h⟩ := except_bind_ok _ _ _ h
  obtain ⟨r4, h4, h⟩ := except_bind_ok _ _ _ h
  have hres2 : res2 = r4 := by simpa [pure, Except.pure] using h.symm
  subst hres2
  rw [auditCheck_memory, hhit, if_pos rfl] at h1
  injection h1 with h1e
  have hn1 : n ∈ r1 := by
    rw [← h1e]
    exact (mem_btreeSetInsert res n n).mpr (Or.inl rfl)
  exact auditCheck_subset _ _ _ _ _ h4 n (auditCheck_subset _ _ _ _ _ h3 n
    (auditCheck_subset _ _ _ _ _ h2 n hn1))

/-- Helper: auditing a resource whose only populated slot is an in-memory
source that scans negative leaves the result set unchanged. -/
theorem auditResource_no_hit (fs : String → Option (List Nat)) (n : String)
    (module : PrePackagedResource) (res : List String) (bytes : List Nat)
    (hsrc : module.in_memory_source = some (FileData.Memory bytes))
    (hmiss : has_dunder_file bytes = false)
    (hb1 : module.in_memory_bytecode = none)
    (hb2 : module.in_memory_bytecode_opt1 = none)
    (hb3 : module.in_memory_bytecode_opt2 = none) :
    auditResource fs n module res = Except.ok res := by
  unfold auditResource
  rw [hsrc, hb1, hb2, hb3, auditCheck_memory, hmiss, if_neg (by simp)]
  simp [auditCheck, bytecodeSource, Bind.bind, Except.bind, pure, Except.pure]

/-- Helper: the registry loop only grows the result set. -/
theorem find_dunder_aux_subset (fs : String → Option (List Nat))
    (l : List (String × PrePackagedResource)) :
    ∀ res s, find_dunder_file_aux fs l res = Except.ok s → ∀ x ∈ res, x ∈ s := by
  induction l with
  | nil =>
    intro res s h x hx
    have : s = res := by
      simpa [find_dunder_file_aux] using h.symm
    subst this
    exact hx
  | cons e t ih =>
    intro res s h x hx
    obtain ⟨nm, md⟩ := e
    unfold find_dunder_file_aux at h
    obtain ⟨res2, h1, h2⟩ := except_bind_ok _ _ _ h
    exact ih res2 s h2 x (auditResource_subset _ _ _ _ _ h1 x hx)

/-- Helper: every name in the result set of the registry loop was either
there initially or keys an entry of the scanned registry segment. -/
theorem find_dunder_aux_only (fs : String → Option (List Nat))
    (l : List (String × PrePackagedResource)) :
    ∀ res s, find_dunder_file_aux fs l res = Except.ok s →
      ∀ x ∈ s, x ∈ res ∨ x ∈ l.map Prod.fst := by
  induction l with
  | nil =>
    intro res s h x hx
    have : s = res := by
      simpa [find_dunder_file_aux] using h.symm
    subst this
    exact Or.inl hx
  | cons e t ih =>
    intro res s h x hx
    obtain ⟨nm, md⟩ := e
    unfold find_dunder_file_aux at h
    obtain ⟨res2, h1, h2⟩ := except_bind_ok _ _ _ h
    rcases ih res2 s h2 x hx with hx2 | hx2
    · rcases auditResource_only _ _ _ _ _ h1 x hx2 with hx3 | hx3
      · exact Or.inl hx3
      · exact Or.inr (by simp [hx3])
    · exact Or.inr (by simp [hx2])

/-- Helper: a successful registry loop over a split registry decomposes at
the split point. -/
theorem find_dunder_aux_split (fs : String → Option (List Nat))
    (l1 : List (String × PrePackagedResource)) (nm : String) (md : PrePackagedResource)
    (l2 : List (String × PrePackagedResource)) :
    ∀ res s, find_dunder_file_aux fs (l1 ++ (nm, md) :: l2) res = Except.ok s →
      ∃ res1 res2, find_dunder_file_aux fs l1 res = Except.ok res1 ∧
        auditResource fs nm md res1 = Except.ok res2 ∧
        find_dunder_file_aux fs l2 res2 = Except.ok s := by
  induction l1 with
  | nil =>
    intro res s h
    rw [List.nil_append] at h
    unfold find_dunder_file_aux at h
    obtain ⟨res2, h1, h2⟩ := except_bind_ok _ _ _ h
    exact ⟨res, res2, rfl, h1, h2⟩
  | cons e t ih =>
    intro res s h
    obtain ⟨n0, m0⟩ := e
    rw [List.cons_append] at h
    unfold find_dunder_file_aux at h
    obtain ⟨resx, h1, h2⟩ := except_bind_ok _ _ _ h
    obtain ⟨res1, res2, ha, hb, hc⟩ := ih resx s h2
    refine ⟨res1, res2, ?_, hb, hc⟩
    unfold find_dunder_file_aux
    rw [h1]
    simpa [Bind.bind, Except.bind] using ha

/-- Helper: a successful lookup gives membership. -/
theorem mem_of_lookup_eq_some {β : Type} (l : List (String × β)) (n : String) (r : β)
    (h : l.lookup n = some r) : (n, r) ∈ l := by
  induction l with
  | nil => simp [List.lookup] at h
  | cons kv t ih =>
    obtain ⟨k0, v0⟩ := kv
    by_cases hk : n = k0
    · subst hk
      simp [List.lookup] at h
      subst h
      exact List.mem_cons_self _ _
    · have hb : (n == k0) = false := beq_eq_false_iff_ne.mpr hk
      simp only [List.lookup, hb] at h
      exact List.mem_cons_of_mem _ (ih h)

/-- C7: over a collector whose registry (with its unique keys) maps a name
to a resource whose in-memory source begins with the line
`# coding: latin-1`, a successful audit flags the name when a following
line references `__file__` (in that codec - its ASCII bytes), and does not
flag it when the source nowhere references `__file__` and no bytecode slot
is populated. -/
theorem find_dunder_file_latin1 (fs : String → Option (List Nat))
    (c : PythonResourceCollector) (n : String) (r : PrePackagedResource)
    (s : List String)
    (hok : c.find_dunder_file fs = Except.ok s)
    (hlook : c.resources.lookup n = some r)
    (hnodup : (c.resources.map Prod.fst).Nodup) :
    (∀ l1 l2, r.in_memory_source = some (FileData.Memory
        (strBytes "# coding: latin-1\n" ++ (l1 ++ strBytes "__file__" ++ l2))) →
      n ∈ s) ∧
    (∀ tail, r.in_memory_source
        = some (FileData.Memory (strBytes "# coding: latin-1\n" ++ tail)) →
      containsSeq (strBytes "# coding: latin-1\n" ++ tail) (strBytes "__file__") = false →
      r.in_memory_bytecode = none → r.in_memory_bytecode_opt1 = none →
      r.in_memory_bytecode_opt2 = none →
      n ∉ s) := by
  obtain ⟨l1, l2, hsplit⟩ := List.append_of_mem (mem_of_lookup_eq_some _ _ _ hlook)
  unfold PythonResourceCollector.find_dunder_file at hok
  rw [hsplit] at hok
  obtain ⟨res1, res2, ha, hb, hc⟩ := find_dunder_aux_split fs l1 n r l2 [] s hok
  constructor
  · intro p1 p2 hsrc
    have hhit := has_dunder_file_latin1_pos p1 p2
    have hn : n ∈ res2 := auditResource_mem_of_source_hit fs n r res1 res2 _ hsrc hhit hb
    exact find_dunder_aux_subset fs l2 res2 s hc n hn
  · intro tail hsrc hmiss hb1 hb2 hb3 hmem
    rw [hsplit] at hnodup
    rw [List.map_append, List.map_cons, List.nodup_middle] at hnodup
    have hkeys : ¬(n ∈ l1.map Prod.fst ∨ n ∈ l2.map Prod.fst) := by
      have := (List.nodup_cons.mp hnodup).1
      simpa [List.mem_append] using this
    have hmiss2 := has_dunder_file_latin1_neg tail hmiss
    have hid : auditResource fs n r res1 = Except.ok res1 :=
      auditResource_no_hit fs n r res1 _ hsrc hmiss2 hb1 hb2 hb3
    have hres2 : res2 = res1 := by
      rw [hid] at hb
      injection hb with he
      exact he.symm
    have hn1 : n ∉ res1 := by
      intro hx
      rcases find_dunder_aux_only fs l1 [] res1 ha n hx with h0 | h0
      · simp at h0
      · exact hkeys (Or.inl h0)
    rcases find_dunder_aux_only fs l2 res2 s hc n hmem with h0 | h0
    · rw [hres2] at h0
      exact hn1 h0
    · exact hkeys (Or.inr h0)

/-- Witness for C7 at a one-resource collector whose source declares
latin-1 and references `__file__`. -/
theorem find_dunder_file_latin1_witness :
    (∀ l1 l2, sampleAuditResource.in_memory_source = some (FileData.Memory
        (strBytes "# coding: latin-1\n" ++ (l1 ++ strBytes "__file__" ++ l2))) →
      "mod" ∈ ["mod"]) ∧
    (∀ tail, sampleAuditResource.in_memory_source
        = some (FileData.Memory (strBytes "# coding: latin-1\n" ++ tail)) →
      containsSeq (strBytes "# coding: latin-1\n" ++ tail) (strBytes "__file__") = false →
      sampleAuditResource.in_memory_bytecode = none →
      sampleAuditResource.in_memory_bytecode_opt1 = none →
      sampleAuditResource.in_memory_bytecode_opt2 = none →
      "mod" ∉ ["mod"]) :=
  find_dunder_file_latin1 (fun _ => none) sampleAuditCollector "mod" sampleAuditResource
    ["mod"] rfl rfl (by decide)

/-- Helper: flat-mapping over an attached list drops the attachment. -/
theorem attach_flatMap {α β : Type} (l : List α) (f : α → List β) :
    l.attach.flatMap (fun c => f c.1) = l.flatMap f := by
  have h1 : l.attach.flatMap (fun c => f c.1)
      = (l.attach.map Subtype.val).flatMap f := by
    rw [List.flatMap_map]
  rw [h1, List.attach_map_subtype_val]

/-- Helper: the directory case of the walk, with the attachment dropped. -/
theorem walkRelFiles_dir (n : String) (ts : List FsTree) :
    walkRelFiles (FsTree.dir n ts)
      = (List.mergeSort ts treeNameLE).flatMap
          (fun c => (walkRelFiles c).map (fun p => fsName c :: p)) := by
  rw [walkRelFiles]
  exact attach_flatMap (List.mergeSort ts treeNameLE)
    (fun c => (walkRelFiles c).map (fun p => fsName c :: p))

/-- Helper: the walk comparator is transitive. -/
theorem treeNameLE_trans (a b c : FsTree) (h1 : treeNameLE a b = true)
    (h2 : treeNameLE b c = true) : treeNameLE a c = true := by
  unfold treeNameLE at h1 h2 ⊢
  exact decide_eq_true (le_trans (of_decide_eq_true h1) (of_decide_eq_true h2))

/-- Helper: the walk comparator is total. -/
theorem treeNameLE_total (a b : FsTree) : (treeNameLE a b || treeNameLE b a) = true := by
  unfold treeNameLE
  rcases le_total (fsName a) (fsName b) with h | h
  · rw [decide_eq_true h]
    simp
  · rw [decide_eq_true h]
    simp

/-- Helper: equivalent trees have the same entry name. -/
theorem treeEquiv_fsName {a b : FsTree} (h : TreeEquiv a b) : fsName a = fsName b := by
  cases h <;> rfl

/-- Helper: a length-matched pointwise-related zip gives `Forall₂`. -/
theorem forall2_from_zip {α β : Type} (R : α → β → Prop) :
    ∀ (v : List α) (u : List β), v.length = u.length →
      (∀ p ∈ v.zip u, R p.1 p.2) → List.Forall₂ R v u := by
  intro v
  induction v with
  | nil =>
    intro u hlen _
    cases u with
    | nil => exact List.Forall₂.nil
    | cons b t2 => simp at hlen
  | cons a t ih =>
    intro u hlen hp
    cases u with
    | nil => simp at hlen
    | cons b t2 =>
      refine List.Forall₂.cons (hp (a, b) ?_) (ih t2 (by simpa using hlen) ?_)
      · rw [List.zip_cons_cons]
        exact List.mem_cons_self _ _
      · intro p hp2
        refine hp p ?_
        rw [List.zip_cons_cons]
        exact List.mem_cons_of_mem _ hp2

/-- Helper: `Forall₂` can be transported along a permutation of its right
list. -/
theorem forall2_perm_right {α β : Type} (R : α → β → Prop) :
    ∀ {u u' : List β}, u.Perm u' → ∀ {v : List α}, List.Forall₂ R v u →
      ∃ v', v.Perm v' ∧ List.Forall₂ R v' u' := by
  intro u u' hp
  induction hp with
  | nil =>
    intro v hf
    exact ⟨v, List.Perm.refl v, hf⟩
  | cons b hp2 ih =>
    intro v hf
    cases hf with
    | cons hR hf2 =>
      obtain ⟨v1, hperm, hf3⟩ := ih hf2
      exact ⟨_ :: v1, hperm.cons _, List.Forall₂.cons hR hf3⟩
  | swap x y l =>
    intro v hf
    cases hf with
    | cons hR1 hf1 =>
      cases hf1 with
      | cons hR2 hf2 =>
        exact ⟨_, List.Perm.swap _ _ _, List.Forall₂.cons hR2 (List.Forall₂.cons hR1 hf2)⟩
  | trans hp1 hp2 ih1 ih2 =>
    intro v hf
    obtain ⟨v1, hpv1, hf1⟩ := ih1 hf
    obtain ⟨v2, hpv2, hf2⟩ := ih2 hf1
    exact ⟨v2, hpv1.trans hpv2, hf2⟩

/-- Helper: `Forall₂` with a key-preserving relation gives equal key
lists. -/
theorem forall2_map_keys {α β : Type} (R : α → β → Prop)
    (keyA : α → String) (keyB : β → String)
    (hR : ∀ a b, R a b → keyA a = keyB b) :
    ∀ {v : List α} {u : List β}, List.Forall₂ R v u → v.map keyA = u.map keyB := by
  intro v u hf
  induction hf with
  | nil => rfl
  | cons h _ ih => simp [hR _ _ h, ih]

/-- Helper: a permutation-up-to-`R` between two lists with the same
duplicate-free key sequence aligns position by position. -/
theorem forall2_of_perm_keys {α β : Type} (R : α → β → Prop)
    (keyA : α → String) (keyB : β → String)
    (hR : ∀ a b, R a b → keyA a = keyB b) :
    ∀ (l1 : List α) (l2 : List β) (v : List α),
      l1.Perm v → List.Forall₂ R v l2 →
      l1.map keyA = l2.map keyB → (l1.map keyA).Nodup →
      List.Forall₂ R l1 l2 := by
  intro l1
  induction l1 with
  | nil =>
    intro l2 v hp hf hk _
    have hv : v = [] := hp.symm.eq_nil
    subst hv
    cases hf
    exact List.Forall₂.nil
  | cons a t ih =>
    intro l2 v hp hf hk hnd
    cases l2 with
    | nil => simp at hk
    | cons b t2 =>
      cases hf with
      | cons hR0 hf' =>
        rename_i v0 v'
        rw [List.map_cons, List.map_cons] at hk
        injection hk with hk1 hk2
        have hkv0 : keyA v0 = keyA a := by
          rw [hR _ _ hR0, ← hk1]
        have hv0mem : v0 ∈ a :: t := hp.mem_iff.mpr (List.mem_cons_self _ _)
        have hnd2 : keyA a ∉ t.map keyA ∧ (t.map keyA).Nodup := by
          rw [List.map_cons, List.nodup_cons] at hnd
          exact hnd
        have hv0 : v0 = a := by
          rcases List.mem_cons.mp hv0mem with h | h
          · exact h
          · exfalso
            have h1 : keyA v0 ∈ t.map keyA := List.mem_map_of_mem keyA h
            rw [hkv0] at h1
            exact hnd2.1 h1
        subst hv0
        exact List.Forall₂.cons hR0 (ih t2 v' hp.cons_inv hf' hk2 hnd2.2)

/-- Helper: flat-maps agree along `Forall₂` when the relation forces equal
images. -/
theorem flatMap_congr_forall2 {α β γ : Type} (R : α → β → Prop)
    (f : α → List γ) (g : β → List γ) (hfg : ∀ a b, R a b → f a = g b) :
    ∀ {l1 : List α} {l2 : List β}, List.Forall₂ R l1 l2 →
      l1.flatMap f = l2.flatMap g := by
  intro l1 l2 hf
  induction hf with
  | nil => rfl
  | cons h _ ih => rw [List.flatMap_cons, List.flatMap_cons, hfg _ _ h, ih]

/-- Helper (core of C8): the walk output is invariant under any
re-enumeration of the directories of a well-formed tree, because the
comparator-sorted sibling order depends only on the (duplicate-free) sibling
names. -/
theorem walkRelFiles_eq_of_equiv : ∀ {t u : FsTree}, TreeEquiv t u → TreeWF t →
    walkRelFiles t = walkRelFiles u := by
  intro t u he
  induction he with
  | file n => intro _; rfl
  | dir n ts us vs hp hlen h ih =>
    intro hwf
    cases hwf with
    | dir _ _ hnodup hch =>
      have hf_vu : List.Forall₂
          (fun c d => fsName c = fsName d ∧ walkRelFiles c = walkRelFiles d) vs us := by
        refine forall2_from_zip _ vs us hlen ?_
        intro p hpz
        obtain ⟨c, d⟩ := p
        have hmem := List.of_mem_zip hpz
        have hwfc : TreeWF c := hch c (hp.mem_iff.mpr hmem.1)
        exact ⟨treeEquiv_fsName (h (c, d) hpz), ih (c, d) hpz hwfc⟩
      rw [walkRelFiles_dir, walkRelFiles_dir]
      have hperm1 : (List.mergeSort ts treeNameLE).Perm ts := List.mergeSort_perm ts _
      have hperm2 : (List.mergeSort us treeNameLE).Perm us := List.mergeSort_perm us _
      obtain ⟨vs', hpv, hf'⟩ := forall2_perm_right _ hperm2.symm hf_vu
      have hpm1 : (List.mergeSort ts treeNameLE).Perm vs' := hperm1.trans (hp.trans hpv)
      have hkeys_vu : vs.map fsName = us.map fsName :=
        forall2_map_keys _ fsName fsName (fun a b hab => hab.1) hf_vu
      have hkeym_perm : ((List.mergeSort ts treeNameLE).map fsName).Perm
          ((List.mergeSort us treeNameLE).map fsName) := by
        have p1 := hperm1.map fsName
        have p2 := hp.map fsName
        rw [hkeys_vu] at p2
        have p3 := (hperm2.map fsName).symm
        exact p1.trans (p2.trans p3)
      have hsorted1 : List.Pairwise (fun x y : String => x ≤ y)
          ((List.mergeSort ts treeNameLE).map fsName) := by
        have hs := List.sorted_mergeSort treeNameLE_trans treeNameLE_total ts
        have hs2 := hs.imp (fun {a b} hab => of_decide_eq_true hab)
        exact List.pairwise_map.mpr hs2
      have hsorted2 : List.Pairwise (fun x y : String => x ≤ y)
          ((List.mergeSort us treeNameLE).map fsName) := by
        have hs := List.sorted_mergeSort treeNameLE_trans treeNameLE_total us
        have hs2 := hs.imp (fun {a b} hab => of_decide_eq_true hab)
        exact List.pairwise_map.mpr hs2
      have hkeys_eq : (List.mergeSort ts treeNameLE).map fsName
          = (List.mergeSort us treeNameLE).map fsName :=
        List.eq_of_perm_of_sorted hkeym_perm hsorted1 hsorted2
      have hnodup1 : ((List.mergeSort ts treeNameLE).map fsName).Nodup :=
        ((hperm1.map fsName).nodup_iff).mpr hnodup
      have hfinal := forall2_of_perm_keys
        (fun c d => fsName c = fsName d ∧ walkRelFiles c = walkRelFiles d)
        fsName fsName (fun a b hab => hab.1)
        (List.mergeSort ts treeNameLE) (List.mergeSort us treeNameLE) vs'
        hpm1 hf' hkeys_eq hnodup1
      exact flatMap_congr_forall2 _ _ _
        (fun c d hcd => by rw [hcd.1, hcd.2]) hfinal

/-- C8: header-file enumeration is deterministic: over a well-formed fixed
directory tree, two runs of the walk - which may receive the children of
each directory in different operating-system enumeration orders - produce
the same ordered sequence of relative paths, and hence identical include
maps. -/
theorem walk_tree_files_deterministic (t u : FsTree) (hwf : TreeWF t)
    (he : TreeEquiv t u) :
    walkRelFiles t = walkRelFiles u ∧
      ∀ include_path, includesFrom include_path t = includesFrom include_path u := by
  have hw := walkRelFiles_eq_of_equiv he hwf
  exact ⟨hw, fun include_path => by unfold includesFrom; rw [hw]⟩

/-- Witness for C8: a two-file directory listed in two different orders. -/
theorem walk_tree_files_deterministic_witness :
    walkRelFiles (FsTree.dir "r" [FsTree.file "b", FsTree.file "a"])
        = walkRelFiles (FsTree.dir "r" [FsTree.file "a", FsTree.file "b"]) ∧
      ∀ include_path,
        includesFrom include_path (FsTree.dir "r" [FsTree.file "b", FsTree.file "a"])
          = includesFrom include_path (FsTree.dir "r" [FsTree.file "a", FsTree.file "b"]) :=
  walk_tree_files_deterministic _ _
    (TreeWF.dir "r" [FsTree.file "b", FsTree.file "a"] (by decide)
      (fun c hc => by
        rcases List.mem_cons.mp hc with rfl | hc2
        · exact TreeWF.file "b"
        · rcases List.mem_cons.mp hc2 with rfl | hc3
          · exact TreeWF.file "a"
          · cases hc3))
    (TreeEquiv.dir "r" [FsTree.file "b", FsTree.file "a"] [FsTree.file "a", FsTree.file "b"]
      [FsTree.file "a", FsTree.file "b"]
      (List.Perm.swap (FsTree.file "a") (FsTree.file "b") [])
      rfl
      (fun p hp => by
        rw [List.zip_cons_cons, List.zip_cons_cons] at hp
        rcases List.mem_cons.mp hp with rfl | hp2
        · exact TreeEquiv.file "a"
        · rcases List.mem_cons.mp hp2 with rfl | hp3
          · exact TreeEquiv.file "b"
          · cases hp3))
